import Mathlib

/-!
Verification of the netdata persistence-layer specification against the
repository sources.

Part A embeds `src/system/install-service.sh.in` (argument parsing, platform
dispatch, service-command reporting, and Linux service-type detection).
Part B models the storage engine (metadata log, page cache, extent/journal
writer, recovery) whose implementation is not part of the source tree: only
the public interface `src/database/engine/metadata_log/metadatalogapi.h` is
present, so those definitions are modelled from the specification text and
are marked as such in their doc comments.
-/

set_option maxRecDepth 4096

deriving instance DecidableEq for Except

/-! ## Part A: install-service.sh.in -/

/-- Exit of the shell script: the exit code, and whether an `error` message was
printed on the way out (source: `error()` at lines 65-70). -/
structure ScriptExit where
  code : Nat
  printedError : Bool
deriving Repr, DecidableEq

/-- The mutable configuration variables of the script with their initial
values (source lines 28-35).  `DUMP_CMDS`, `EXPORT_CMDS` and `INSTALL` are
0/1 valued shell variables; the strings keep their shell values. -/
structure SvcConfig where
  DUMP_CMDS : Nat
  ENABLE : String
  EXPORT_CMDS : Nat
  INSTALL : Nat
  SVC_SOURCE : String
  SVC_TYPE : String
  SAVE_CMDS_PATH : String
deriving Repr, DecidableEq

/-- Initial variable values, source lines 28-35 (`SAVE_CMDS_PATH` starts
unset, modelled as the empty string). -/
def initialSvcConfig : SvcConfig :=
  { DUMP_CMDS := 0, ENABLE := "auto", EXPORT_CMDS := 0, INSTALL := 1,
    SVC_SOURCE := "@libsysdir_POST@", SVC_TYPE := "detect", SAVE_CMDS_PATH := "" }

/-- `LINUX_INIT_TYPES="wsl systemd openrc lsb initd runit"` (line 32), as the
word list the `for t in ${LINUX_INIT_TYPES}` loop iterates over. -/
def LINUX_INIT_TYPES : List String := ["wsl", "systemd", "openrc", "lsb", "initd", "runit"]

/-- `valid_types` (lines 85-100): the whitespace-separated words echoed for
each platform. -/
def valid_types (platform : String) : List String :=
  if platform = "Linux" then ["detect", "systemd", "openrc", "lsb", "initd"]
  else if platform = "FreeBSD" then ["detect", "freebsd"]
  else if platform = "Darwin" then ["detect", "launchd"]
  else ["detect"]

/-- The option loop of `parse_args` (lines 608-647).  The loop runs while
`$1` is non-empty; `--help` and `--type help` leave with status 0, an
unrecognized option or a missing `--save-cmds` value with status 1 (via
`info`, not `error`).  A value-taking option given as the last argument makes
the trailing `shift 1` fail under `set -e`, aborting with a nonzero status;
that dead-end path is modelled as status 1. -/
def parse_args_loop : List String → SvcConfig → Except ScriptExit SvcConfig
  | [], cfg => .ok cfg
  | a :: rest, cfg =>
    if a = "" then .ok cfg
    else if a = "--source" ∨ a = "-s" then
      match rest with
      | b :: rest2 => parse_args_loop rest2 { cfg with SVC_SOURCE := b }
      | [] => .error ⟨1, false⟩
    else if a = "--type" ∨ a = "-t" then
      match rest with
      | b :: rest2 =>
        if b = "help" then .error ⟨0, false⟩
        else parse_args_loop rest2 { cfg with SVC_TYPE := b }
      | [] => .error ⟨1, false⟩
    else if a = "--save-cmds" then
      match rest with
      | b :: rest2 =>
        if b = "" then .error ⟨1, false⟩
        else parse_args_loop rest2 { cfg with SAVE_CMDS_PATH := b }
      | [] => .error ⟨1, false⟩
    else if a = "--cmds" ∨ a = "-c" then parse_args_loop rest { cfg with DUMP_CMDS := 1 }
    else if a = "--cmds-only" then parse_args_loop rest { cfg with INSTALL := 0 }
    else if a = "--export-cmds" then parse_args_loop rest { cfg with EXPORT_CMDS := 1 }
    else if a = "--enable" ∨ a = "-e" then parse_args_loop rest { cfg with ENABLE := "enable" }
    else if a = "--disable" ∨ a = "-d" then parse_args_loop rest { cfg with ENABLE := "disable" }
    else if a = "--help" ∨ a = "-h" then .error ⟨0, false⟩
    else .error ⟨1, false⟩

/-- Environment probed by the script: the platform reported by `uname -s`
(line 33), the directory test `[ -d ... ]` used at line 654, and the fallback
source directory computed from `SCRIPT_SOURCE` at line 650. -/
structure ScriptEnv where
  platform : String
  isDir : String → Bool
  fallbackSvcDir : String

/-- `${SVC_SOURCE#@}`: strip at most one leading `@`. -/
def stripLeadingAt (s : String) : String :=
  if s.data.head? = some '@' then s.drop 1 else s

/-- `parse_args` after the option loop (lines 649-663): substitute the
un-templated default source directory, reject a missing source directory when
installing, and reject a service type that is not a word of `valid_types`
(the `valid_types | grep -vw "${SVC_TYPE}"` pipeline prints the line -- and
so succeeds -- exactly when `SVC_TYPE` is not one of its words). -/
def parse_args (env : ScriptEnv) (args : List String) : Except ScriptExit SvcConfig :=
  match parse_args_loop args initialSvcConfig with
  | .error e => .error e
  | .ok cfg0 =>
    let cfg :=
      if stripLeadingAt cfg0.SVC_SOURCE = "libsysdir_POST@"
      then { cfg0 with SVC_SOURCE := env.fallbackSvcDir }
      else cfg0
    if ¬ env.isDir cfg.SVC_SOURCE ∧ cfg.INSTALL = 1 then .error ⟨1, true⟩
    else if ¬ (valid_types env.platform).contains cfg.SVC_TYPE then .error ⟨1, true⟩
    else .ok cfg

/-- Result of `main` (lines 669-697) up to the platform dispatch.  The three
supported platforms continue into system-specific install/command logic
(external commands, files); everything this development needs is decided
before or at the dispatch. -/
inductive MainOutcome where
  | earlyExit (e : ScriptExit)
  | platformDispatch (platform : String) (cfg : SvcConfig)
  | exited (code : Nat) (printedError : Bool)
deriving Repr, DecidableEq

/-- `main` (lines 669-697): run `parse_args`, then `case "${PLATFORM}" in`
with branches `FreeBSD`, `Darwin`, `Linux`, and a default that prints an
error and exits 5. -/
def main_sh (env : ScriptEnv) (args : List String) : MainOutcome :=
  match parse_args env args with
  | .error e => .earlyExit e
  | .ok cfg =>
    if env.platform = "FreeBSD" then .platformDispatch "FreeBSD" cfg
    else if env.platform = "Darwin" then .platformDispatch "Darwin" cfg
    else if env.platform = "Linux" then .platformDispatch "Linux" cfg
    else .exited 5 true

/-- The `NETDATA_*` command variables read and written by the `*_cmds`
functions; the empty string models an unset variable.
`NETDATA_INSTALLER_START_COMMAND` is the distinct (never assigned) variable
that line 142 reads. -/
structure CmdVars where
  NETDATA_START_CMD : String
  NETDATA_STOP_CMD : String
  NETDATA_INSTALLER_START_CMD : String
  NETDATA_INSTALLER_START_COMMAND : String
deriving Repr, DecidableEq

def emptyCmdVars : CmdVars := ⟨"", "", "", ""⟩

/-- A single-quote character, for the `VAR='value'` lines `dump_cmds`
prints. -/
def squo : String := String.singleton (Char.ofNat 39)

/-- `dump_cmds` (lines 132-137): print `NAME='value'` for each of the three
command variables that is set. -/
def dump_cmds (v : CmdVars) : List String :=
  (if v.NETDATA_START_CMD ≠ "" then
    ["NETDATA_START_CMD=" ++ squo ++ v.NETDATA_START_CMD ++ squo] else []) ++
  (if v.NETDATA_STOP_CMD ≠ "" then
    ["NETDATA_STOP_CMD=" ++ squo ++ v.NETDATA_STOP_CMD ++ squo] else []) ++
  (if v.NETDATA_INSTALLER_START_CMD ≠ "" then
    ["NETDATA_INSTALLER_START_CMD=" ++ squo ++ v.NETDATA_INSTALLER_START_CMD ++ squo] else [])

/-- `export_cmds` (lines 139-144): the (name, value) pairs exported to the
environment.  Note line 142 exports `NETDATA_INSTALLER_START_CMD` with the
value of `NETDATA_INSTALLER_START_COMMAND`. -/
def export_cmds (v : CmdVars) : List (String × String) :=
  (if v.NETDATA_START_CMD ≠ "" then
    [("NETDATA_START_CMD", v.NETDATA_START_CMD)] else []) ++
  (if v.NETDATA_STOP_CMD ≠ "" then
    [("NETDATA_STOP_CMD", v.NETDATA_STOP_CMD)] else []) ++
  (if v.NETDATA_INSTALLER_START_CMD ≠ "" then
    [("NETDATA_INSTALLER_START_CMD", v.NETDATA_INSTALLER_START_COMMAND)] else [])

/-- `freebsd_cmds` (lines 535-539). -/
def freebsd_cmds (v : CmdVars) : CmdVars :=
  { v with NETDATA_START_CMD := "service netdata start",
           NETDATA_STOP_CMD := "service netdata stop",
           NETDATA_INSTALLER_START_CMD := "service netdata onestart" }

/-- Filesystem/command probes performed by the `is*` detection helpers
(source lines 179-504).  Each field is the boolean outcome of one probe. -/
structure SysEnv where
  dir_lib_systemd_system : Bool
  dir_usr_lib_systemd_system : Bool
  systemctl_usable : Bool
  pid1_is_systemd : Bool
  systemd_pids_present : Bool
  systemd_pid_in_our_ns : Bool
  file_lib_rc_functions : Bool
  dir_etc_init_d : Bool
  pid1_is_openrc_init : Bool
  file_run_openrc_softlevel : Bool
  cmd_openrc : Bool
  file_lib_lsb_init_functions : Bool
  cmd_chkconfig : Bool
  dir_lib_rc_sv_d : Bool
  cmd_runit : Bool
  dir_run_runit : Bool
  exec_etc_runit_1 : Bool
  uname_r_has_WSL : Bool
  uname_r_has_Microsoft : Bool
deriving Repr, DecidableEq

/-- The `IS_*` memoization variables set by the `check_*` helpers; `none`
models an unset shell variable, `some v` the cached exit status `v`. -/
structure ChkState where
  IS_SYSTEMD : Option Nat
  IS_OPENRC : Option Nat
  IS_LSB : Option Nat
  IS_INITD : Option Nat
  IS_WSL : Option Nat
  IS_RUNIT : Option Nat
deriving Repr, DecidableEq

def initialChkState : ChkState := ⟨none, none, none, none, none, none⟩

/-- `issystemd` (lines 179-215), as an exit status.  The loop over the
`systemd` pids reduces to whether some running `systemd` pid shares our pid
namespace. -/
def issystemd (e : SysEnv) : Nat :=
  if ¬ e.dir_lib_systemd_system ∧ ¬ e.dir_usr_lib_systemd_system then 1
  else if ¬ e.systemctl_usable then 1
  else if e.pid1_is_systemd then 0
  else if ¬ e.systemd_pids_present then 1
  else if e.systemd_pid_in_our_ns then 0
  else 1

/-- `check_systemd` (lines 217-224). -/
def check_systemd (e : SysEnv) (st : ChkState) : Nat × ChkState :=
  match st.IS_SYSTEMD with
  | some v => (v, st)
  | none => let v := issystemd e; (v, { st with IS_SYSTEMD := some v })

/-- `isopenrc` (lines 279-297). -/
def isopenrc (e : SysEnv) : Nat :=
  if ¬ e.file_lib_rc_functions then 1
  else if ¬ e.dir_etc_init_d then 1
  else if e.pid1_is_openrc_init then 0
  else if e.file_run_openrc_softlevel then 0
  else if e.cmd_openrc then 0
  else 1

/-- `check_openrc` (lines 299-306). -/
def check_openrc (e : SysEnv) (st : ChkState) : Nat × ChkState :=
  match st.IS_OPENRC with
  | some v => (v, st)
  | none => let v := isopenrc e; (v, { st with IS_OPENRC := some v })

/-- `islsb` (lines 339-350); calls `check_openrc`, so it can update the memo
state. -/
def islsb (e : SysEnv) (st : ChkState) : Nat × ChkState :=
  if ¬ e.dir_etc_init_d then (1, st)
  else
    let r := check_openrc e st
    if r.1 = 0 then (1, r.2)
    else if e.file_lib_lsb_init_functions then (0, r.2)
    else (1, r.2)

/-- `check_lsb` (lines 352-359). -/
def check_lsb (e : SysEnv) (st : ChkState) : Nat × ChkState :=
  match st.IS_LSB with
  | some v => (v, st)
  | none =>
    let r := islsb e st
    (r.1, { r.2 with IS_LSB := some r.1 })

/-- `isrunit` (lines 445-459). -/
def isrunit (e : SysEnv) : Nat :=
  if ¬ e.dir_lib_rc_sv_d then 1
  else if ¬ e.cmd_runit then 1
  else if e.dir_run_runit then 0
  else if e.exec_etc_runit_1 then 0
  else 1

/-- `check_runit` (lines 461-468). -/
def check_runit (e : SysEnv) (st : ChkState) : Nat × ChkState :=
  match st.IS_RUNIT with
  | some v => (v, st)
  | none => let v := isrunit e; (v, { st with IS_RUNIT := some v })

/-- `iswsl` (lines 485-495). -/
def iswsl (e : SysEnv) : Nat :=
  if e.uname_r_has_WSL then 0
  else if e.uname_r_has_Microsoft then 0
  else 1

/-- `check_wsl` (lines 497-504). -/
def check_wsl (e : SysEnv) (st : ChkState) : Nat × ChkState :=
  match st.IS_WSL with
  | some v => (v, st)
  | none => let v := iswsl e; (v, { st with IS_WSL := some v })

mutual

/-- `isinitd` (lines 392-403).  Note the line-400 call `check_initd || return 0`
(its comment speaks of an LSB check), which makes `isinitd` and `check_initd`
mutually recursive.  `fuel` bounds the call depth; `none` means the call does
not return within `fuel` nested calls. -/
def isinitd (fuel : Nat) (e : SysEnv) (st : ChkState) : Option (Nat × ChkState) :=
  match fuel with
  | 0 => none
  | f + 1 =>
    if ¬ e.dir_etc_init_d then some (1, st)
    else if ¬ e.cmd_chkconfig then some (1, st)
    else
      match check_initd f e st with
      | none => none
      | some (r, st2) => if r ≠ 0 then some (0, st2) else some (1, st2)

/-- `check_initd` (lines 405-412): memoize `isinitd` in `IS_INITD`. -/
def check_initd (fuel : Nat) (e : SysEnv) (st : ChkState) : Option (Nat × ChkState) :=
  match fuel with
  | 0 => none
  | f + 1 =>
    match st.IS_INITD with
    | some v => some (v, st)
    | none =>
      match isinitd f e st with
      | none => none
      | some (r, st2) => some (r, { st2 with IS_INITD := some r })

end

/-- Dispatch of `"check_${t}"` inside the `detect_linux_svc_type` loop
(line 568).  All helpers are total except the `initd` pair, which carries the
fuel; a name outside the candidate list would be an unknown command (status
127, which the `if` treats as failure). -/
def checkByName (fuel : Nat) (e : SysEnv) (st : ChkState) : String → Option (Nat × ChkState)
  | "wsl" => some (check_wsl e st)
  | "systemd" => some (check_systemd e st)
  | "openrc" => some (check_openrc e st)
  | "lsb" => some (check_lsb e st)
  | "initd" => check_initd fuel e st
  | "runit" => some (check_runit e st)
  | _ => some (127, st)

/-- The `for t in ${LINUX_INIT_TYPES}` loop of `detect_linux_svc_type`
(lines 567-572): the first type whose check succeeds is selected. -/
def detectLoop (fuel : Nat) (e : SysEnv) : List String → ChkState → Option (Option String × ChkState)
  | [], st => some (none, st)
  | t :: rest, st =>
    match checkByName fuel e st t with
    | none => none
    | some (r, st2) => if r = 0 then some (some t, st2) else detectLoop fuel e rest st2

/-- `detect_linux_svc_type` (lines 565-582): when `SVC_TYPE` is `detect`, run
the detection loop and echo the detected type (`none` inside the pair means
detection failed and an error was reported); otherwise echo `SVC_TYPE`
unchanged.  The outer `none` means the call never returns within `fuel`. -/
def detect_linux_svc_type (fuel : Nat) (e : SysEnv) (svcType : String) (st : ChkState) :
    Option (Option String × ChkState) :=
  if svcType = "detect" then detectLoop fuel e LINUX_INIT_TYPES st
  else some (some svcType, st)

/-- Environment for exercising the unsupported-platform path: `uname -s`
reports `SunOS`. -/
def sunosEnv : ScriptEnv :=
  { platform := "SunOS", isDir := fun _ => false, fallbackSvcDir := "/tmp/netdata-system" }

/-- C8: if the arguments get through `parse_args` without an early exit and
the platform is not Linux, FreeBSD or Darwin, `main` prints an error and
exits with status 5. -/
theorem main_unsupported_platform_exit_5 (env : ScriptEnv) (args : List String)
    (cfg : SvcConfig) (hok : parse_args env args = .ok cfg)
    (hL : env.platform ≠ "Linux") (hF : env.platform ≠ "FreeBSD")
    (hD : env.platform ≠ "Darwin") :
    main_sh env args = .exited 5 true := by
  unfold main_sh
  rw [hok]
  simp [hL, hF, hD]

/-- Witness for C8: on SunOS with `--cmds-only`, parsing succeeds (service
type `detect` is accepted on every platform) and the script exits 5. -/
theorem main_unsupported_platform_exit_5_witness :
    parse_args sunosEnv ["--cmds-only"] =
      .ok { DUMP_CMDS := 0, ENABLE := "auto", EXPORT_CMDS := 0, INSTALL := 0,
            SVC_SOURCE := "/tmp/netdata-system", SVC_TYPE := "detect", SAVE_CMDS_PATH := "" }
  ∧ main_sh sunosEnv ["--cmds-only"] = .exited 5 true := by
  refine ⟨by decide, ?_⟩
  exact main_unsupported_platform_exit_5 sunosEnv ["--cmds-only"]
    { DUMP_CMDS := 0, ENABLE := "auto", EXPORT_CMDS := 0, INSTALL := 0,
      SVC_SOURCE := "/tmp/netdata-system", SVC_TYPE := "detect", SAVE_CMDS_PATH := "" }
    (by decide) (by decide) (by decide) (by decide)

/-- C9: with the FreeBSD commands set, `dump_cmds` prints
`NETDATA_INSTALLER_START_CMD` with the value `service netdata onestart`, but
`export_cmds` exports that variable with the (empty) value of the never-set
variable `NETDATA_INSTALLER_START_COMMAND` (line 142): the `--cmds` and
`--export-cmds` paths disagree on `NETDATA_INSTALLER_START_CMD`. -/
theorem export_cmds_installer_start_mismatch :
    dump_cmds (freebsd_cmds emptyCmdVars) =
      ["NETDATA_START_CMD=" ++ squo ++ "service netdata start" ++ squo,
       "NETDATA_STOP_CMD=" ++ squo ++ "service netdata stop" ++ squo,
       "NETDATA_INSTALLER_START_CMD=" ++ squo ++ "service netdata onestart" ++ squo]
  ∧ export_cmds (freebsd_cmds emptyCmdVars) =
      [("NETDATA_START_CMD", "service netdata start"),
       ("NETDATA_STOP_CMD", "service netdata stop"),
       ("NETDATA_INSTALLER_START_CMD", "")]
  ∧ ("service netdata onestart" : String) ≠ "" := by
  refine ⟨by decide, by decide, by decide⟩

/-- An environment in which `/etc/init.d` exists and `chkconfig` is
available, but none of the wsl/systemd/openrc/lsb probes succeeds: the
detection loop reaches `check_initd`. -/
def initdTrapEnv : SysEnv :=
  { dir_lib_systemd_system := false, dir_usr_lib_systemd_system := false,
    systemctl_usable := false, pid1_is_systemd := false,
    systemd_pids_present := false, systemd_pid_in_our_ns := false,
    file_lib_rc_functions := false, dir_etc_init_d := true,
    pid1_is_openrc_init := false, file_run_openrc_softlevel := false,
    cmd_openrc := false, file_lib_lsb_init_functions := false,
    cmd_chkconfig := true, dir_lib_rc_sv_d := false, cmd_runit := false,
    dir_run_runit := false, exec_etc_runit_1 := false,
    uname_r_has_WSL := false, uname_r_has_Microsoft := false }

/-- In any environment with `/etc/init.d` present and `chkconfig` available,
`isinitd` and `check_initd` call each other without ever setting `IS_INITD`,
so no amount of fuel lets either return. -/
theorem initd_pair_consumes_all_fuel (e : SysEnv)
    (he1 : e.dir_etc_init_d = true) (he2 : e.cmd_chkconfig = true) :
    ∀ fuel st, st.IS_INITD = none →
      isinitd fuel e st = none ∧ check_initd fuel e st = none := by
  intro fuel
  induction fuel with
  | zero => intro st _; exact ⟨rfl, rfl⟩
  | succ f ih =>
    intro st h
    constructor
    · unfold isinitd
      simp [he1, he2, (ih st h).2]
    · unfold check_initd
      simp [h, (ih st h).1]

/-- C10: the `check_initd`/`isinitd` pair does not terminate in every
environment -- whenever `/etc/init.d` exists and `chkconfig` is available
(and `IS_INITD` is not yet cached) the two recurse into each other forever --
and consequently `detect_linux_svc_type` itself fails to terminate in an
environment where the wsl/systemd/openrc/lsb checks all fail and the loop
reaches `initd`. -/
theorem detect_linux_svc_type_diverges_on_initd :
    (∀ fuel st, st.IS_INITD = none →
        isinitd fuel initdTrapEnv st = none ∧ check_initd fuel initdTrapEnv st = none)
  ∧ (∀ fuel, detect_linux_svc_type fuel initdTrapEnv "detect" initialChkState = none) := by
  have key := initd_pair_consumes_all_fuel initdTrapEnv rfl rfl
  refine ⟨key, ?_⟩
  intro fuel
  have h4 : check_initd fuel initdTrapEnv ⟨some 1, some 1, some 1, none, some 1, none⟩ = none :=
    (key fuel ⟨some 1, some 1, some 1, none, some 1, none⟩ rfl).2
  show (match check_initd fuel initdTrapEnv (⟨some 1, some 1, some 1, none, some 1, none⟩ : ChkState) with
        | none => (none : Option (Option String × ChkState))
        | some (r, st2) =>
          if r = 0 then some (some "initd", st2)
          else detectLoop fuel initdTrapEnv ["runit"] st2) = none
  rw [h4]

/-- Witness for C10: with fuel 5, a fresh memo state, `/etc/init.d` present
and `chkconfig` available, `check_initd` fails to return. -/
theorem detect_linux_svc_type_diverges_on_initd_witness :
    check_initd 5 initdTrapEnv initialChkState = none :=
  (detect_linux_svc_type_diverges_on_initd.1 5 initialChkState rfl).2

/-! ## Part B: the storage engine core

The implementation behind `src/database/engine/metadata_log/metadatalogapi.h`
(metadata log, UUID index, page cache, extent/journal writer, recovery) is
not part of the source tree, so the definitions below are modelled from the
specification text (`spec.md` sections 3-7). -/

/-- Modelled from the spec: `MetricUUID`, the stable 128-bit dimension
identifier (the missing engine sources key everything on `uuid_t`); the
width is immaterial to the claims, so it is modelled as `Nat`. -/
abbrev UUID := Nat

/-- Modelled from the spec: one collected sample,
`(timestamp, value, per-point-flags)`. -/
structure Sample where
  timestamp : Nat
  value : Int
  flags : Nat
deriving Repr, DecidableEq

/-- Modelled from the spec: a Page, a bounded append-only run of samples for
one MetricUUID. -/
structure Page where
  uuid : UUID
  samples : List Sample
deriving Repr, DecidableEq

/-- Start of the Page's time range (first sample's timestamp). -/
def Page.startTime (p : Page) : Nat := (p.samples.head?.map (·.timestamp)).getD 0

/-- End of the Page's time range (last sample's timestamp). -/
def Page.endTime (p : Page) : Nat := ((p.samples.getLast?).map (·.timestamp)).getD 0

/-- Modelled from the spec: an Extent, the on-disk aggregate of one or more
closed Pages written atomically with a checksum trailer; `checksumOk = false`
models a torn/incomplete write whose trailer does not verify. -/
structure Extent where
  id : Nat
  pages : List Page
  checksumOk : Bool
deriving Repr, DecidableEq

/-- Modelled from the spec: a Journal Record, mapping
`(MetricUUID, time range)` to `(extent id, offset/length)`; the offset and
length are modelled as the page's position inside the extent. -/
structure JRecord where
  uuid : UUID
  startTime : Nat
  endTime : Nat
  extentId : Nat
  pageIdx : Nat
deriving Repr, DecidableEq

/-- Modelled from the spec: a raw journal entry as found on disk after a
crash: a complete record, or a torn/incomplete one. -/
inductive JSlot where
  | entry (r : JRecord)
  | torn
deriving Repr, DecidableEq

/-- Modelled from the spec: the tag of a Metadata Log Record, a closed sum of
`DeleteChart` and `DeleteDimension`. -/
inductive MetaTag where
  | deleteChart (chartId : Nat)
  | deleteDimension (uuid : UUID)
deriving Repr, DecidableEq

/-- Modelled from the spec: a Metadata Log Record
`{sequenceNumber, tag, id}`. -/
structure MetaRecord where
  seq : Nat
  tag : MetaTag
deriving Repr, DecidableEq

/-- Modelled from the spec: a raw metadata-log entry as found on disk: a
readable record or an unreadable one. -/
inductive MetaSlot where
  | entry (r : MetaRecord)
  | unreadable
deriving Repr, DecidableEq

/-- Modelled from the spec: the UUID Index of section 4.1, holding the
on-disk location descriptors and the deleted marks. -/
structure UUIDIndex where
  locations : List JRecord
  deleted : List UUID
deriving Repr, DecidableEq

/-- Index contract `isDeleted(uuid)` (spec section 4.1). -/
def UUIDIndex.isDeleted (ix : UUIDIndex) (u : UUID) : Bool := ix.deleted.contains u

/-- Index contract `markDeleted(uuid)` (spec section 4.1); idempotent by
construction. -/
def UUIDIndex.markDeleted (ix : UUIDIndex) (u : UUID) : UUIDIndex :=
  if ix.deleted.contains u then ix else { ix with deleted := ix.deleted ++ [u] }

/-- Modelled from the spec: a Chart owning its Dimensions' UUIDs. -/
structure Chart where
  id : Nat
  dims : List UUID
deriving Repr, DecidableEq

/-- Errors of the external interface (spec sections 6-7). -/
inductive EngineError where
  | UnknownMetric
  | CorruptExtent
deriving Repr, DecidableEq

/-- Modelled from the spec: the engine state.  `metaLog`, `dataFiles` and
`journal` are the durable on-disk components (metadata-log appends are
synchronous, data/journal writes happen at flush); the rest is in-memory
state lost on a crash. -/
structure EngineState where
  index : UUIDIndex
  openPages : List Page
  cachedPages : List Page
  pendingFlush : List Page
  nextSeq : Nat
  nextExtentId : Nat
  metaLog : List MetaRecord
  dataFiles : List Extent
  journal : List JRecord
deriving Repr, DecidableEq

/-- Engine state right after a first `metalog_init` on an empty directory. -/
def initialEngine : EngineState :=
  { index := ⟨[], []⟩, openPages := [], cachedPages := [], pendingFlush := [],
    nextSeq := 1, nextExtentId := 1, metaLog := [], dataFiles := [], journal := [] }

/-- Maximum point count of a Page (spec section 3; the concrete bound is not
fixed by the spec). -/
def maxPagePoints : Nat := 1024

/-- Maximum time span of a Page (spec section 3; the concrete bound is not
fixed by the spec). -/
def maxPageSpan : Nat := 4096

/-- Whether an open Page is full, by point count or time span (spec
section 4.2). -/
def pageFull (p : Page) (ts : Nat) : Bool :=
  decide (maxPagePoints ≤ p.samples.length) || decide (p.startTime + maxPageSpan ≤ ts)

/-- Modelled from the spec: `appendSample` / `append(uuid, timestamp, value,
flags)` of sections 4.2 and 6: fails with `UnknownMetric` if the uuid is
marked deleted; otherwise appends to the open Page for the uuid, opening a
new Page if none exists, or -- when the current one is full -- closing it,
enqueueing it for flush and opening a fresh one. -/
def appendSample (st : EngineState) (u : UUID) (ts : Nat) (v : Int) (flags : Nat) :
    Except EngineError EngineState :=
  if st.index.isDeleted u then .error .UnknownMetric
  else
    match st.openPages.find? (fun p => p.uuid == u) with
    | none =>
      .ok { st with openPages := st.openPages ++ [⟨u, [⟨ts, v, flags⟩]⟩] }
    | some p =>
      if pageFull p ts then
        .ok { st with
          openPages := (st.openPages.filter (fun q => !(q.uuid == u))) ++ [⟨u, [⟨ts, v, flags⟩]⟩],
          pendingFlush := st.pendingFlush ++ [p] }
      else
        .ok { st with
          openPages := st.openPages.map (fun q =>
            if q.uuid == u then ⟨q.uuid, q.samples ++ [⟨ts, v, flags⟩]⟩ else q) }

/-- Whether the time range `[s, e]` intersects the query range `[t1, t2]`. -/
def rangesIntersect (s e t1 t2 : Nat) : Bool := decide (t1 ≤ e) && decide (s ≤ t2)

/-- Modelled from the spec: `readPage(journalRecord)` of section 4.3: look up
the Extent, verify its checksum, and fail with `CorruptExtent` on a mismatch
or an out-of-range location. -/
def readPage (files : List Extent) (r : JRecord) : Except EngineError Page :=
  match files.find? (fun e => e.id == r.extentId) with
  | none => .error .CorruptExtent
  | some e =>
    if e.checksumOk then
      match e.pages[r.pageIdx]? with
      | some p => .ok p
      | none => .error .CorruptExtent
    else .error .CorruptExtent

/-- Modelled from the spec: `readRange` / `read(uuid, timeRange)` of sections
4.2 and 6: a deleted uuid reads as empty (section 3 invariant); otherwise the
Pages intersecting the range are pulled from the cache first, and the gaps
are requested from the Extent/Journal Writer through the index's location
descriptors, a `CorruptExtent` range being treated as absent (section 7). -/
def readRange (st : EngineState) (u : UUID) (t1 t2 : Nat) : List Page :=
  if st.index.isDeleted u then []
  else
    let cached := (st.openPages ++ st.cachedPages).filter
      (fun p => p.uuid == u && rangesIntersect p.startTime p.endTime t1 t2)
    let gaps := st.index.locations.filter (fun r =>
      r.uuid == u && rangesIntersect r.startTime r.endTime t1 t2 &&
      !(cached.any (fun p => p.startTime == r.startTime && p.endTime == r.endTime)))
    cached ++ gaps.filterMap (fun r => (readPage st.dataFiles r).toOption)

/-- Extent as written by a completed flush: valid checksum trailer. -/
def mkExtent (eid : Nat) (pages : List Page) : Extent := ⟨eid, pages, true⟩

/-- Journal Record for the page at position `idx` of extent `eid`. -/
def mkJRecord (eid idx : Nat) (p : Page) : JRecord :=
  ⟨p.uuid, p.startTime, p.endTime, eid, idx⟩

/-- Journal Records for the pages of one extent, starting at position
`idx`. -/
def mkJRecordsFrom (eid idx : Nat) : List Page → List JRecord
  | [] => []
  | p :: rest => mkJRecord eid idx p :: mkJRecordsFrom eid (idx + 1) rest

/-- Journal Records for all the pages of one extent. -/
def mkJRecords (eid : Nat) (pages : List Page) : List JRecord := mkJRecordsFrom eid 0 pages

/-- Modelled from the spec: the engine-level effect of a completed
`flush(pages)` (section 4.3): the pending closed Pages become one valid
Extent plus one Journal Record per Page, the index learns the new locations,
and the flushed Pages stay cached.  The write/fsync micro-steps inside flush
are modelled separately for the durability-order claims. -/
def flushStep (st : EngineState) : EngineState :=
  match st.pendingFlush with
  | [] => st
  | pages =>
    { st with
      pendingFlush := [],
      cachedPages := st.cachedPages ++ pages,
      dataFiles := st.dataFiles ++ [mkExtent st.nextExtentId pages],
      journal := st.journal ++ mkJRecords st.nextExtentId pages,
      index := { st.index with locations := st.index.locations ++ mkJRecords st.nextExtentId pages },
      nextExtentId := st.nextExtentId + 1 }

/-- Modelled from the spec: `metalog_delete_dimension_by_uuid` /
`deleteDimensionByUUID(metricUUID)` (section 4.4): synchronously append a
single `DeleteDimension` record (durable on return) and mark the UUID
deleted. -/
def metalog_delete_dimension_by_uuid (st : EngineState) (u : UUID) : EngineState :=
  { st with
    metaLog := st.metaLog ++ [⟨st.nextSeq, .deleteDimension u⟩],
    nextSeq := st.nextSeq + 1,
    index := st.index.markDeleted u }

/-- The cascade of `DeleteDimension` records for the dimensions of a deleted
chart, numbered consecutively from `s`. -/
def dimDeleteRecords (s : Nat) : List UUID → List MetaRecord
  | [] => []
  | d :: rest => ⟨s, .deleteDimension d⟩ :: dimDeleteRecords (s + 1) rest

/-- The record batch appended by a chart deletion: one `DeleteChart` record,
then one `DeleteDimension` record per owned dimension. -/
def chartDeleteRecords (s : Nat) (c : Chart) : List MetaRecord :=
  ⟨s, .deleteChart c.id⟩ :: dimDeleteRecords (s + 1) c.dims

/-- Modelled from the spec: `metalog_commit_delete_chart` /
`commitDeleteChart(chart)` (section 4.4): synchronously append one
`DeleteChart` record then a `DeleteDimension` record per owned dimension, all
in one durable batch, and mark each owned UUID deleted before returning. -/
def metalog_commit_delete_chart (st : EngineState) (c : Chart) : EngineState :=
  { st with
    metaLog := st.metaLog ++ chartDeleteRecords st.nextSeq c,
    nextSeq := st.nextSeq + (c.dims.length + 1),
    index := c.dims.foldl (fun ix d => ix.markDeleted d) st.index }

/-- Whether a Journal Record's referenced Extent is present with a valid
checksum trailer and the record's location lies inside it. -/
def extentValidFor (files : List Extent) (r : JRecord) : Bool :=
  match files.find? (fun e => e.id == r.extentId) with
  | some e => e.checksumOk && decide (r.pageIdx < e.pages.length)
  | none => false

/-- Modelled from the spec: `ScanJournals` (section 4.5, step 1): read the
journal entries in order, verify each referenced Extent's checksum trailer,
and truncate at the first invalid or incomplete record, discarding everything
after it. -/
def scanJournals (slots : List JSlot) (files : List Extent) : List JRecord :=
  match slots with
  | [] => []
  | .torn :: _ => []
  | .entry r :: rest =>
    if extentValidFor files r then r :: scanJournals rest files else []

/-- Scan of the metadata log from an optional previous sequence number,
truncating at the first unreadable record or sequence discontinuity. -/
def scanMetaFrom (prev : Option Nat) : List MetaSlot → List MetaRecord
  | [] => []
  | .unreadable :: _ => []
  | .entry r :: rest =>
    match prev with
    | none => r :: scanMetaFrom (some r.seq) rest
    | some p => if r.seq = p + 1 then r :: scanMetaFrom (some r.seq) rest else []

/-- Modelled from the spec: `ScanMetadataLog` (section 4.5, step 2): read the
Metadata Log Records in sequence-number order and truncate at the first
record with a discontinuous or unreadable sequence number. -/
def scanMetadataLog (slots : List MetaSlot) : List MetaRecord := scanMetaFrom none slots

/-- Application of one surviving deletion record to the UUID Index
(section 4.5, step 3).  A `DeleteChart` record carries only the chart id; its
cascade was materialized as per-dimension records when the deletion was
committed. -/
def applyDeletion (ix : UUIDIndex) (r : MetaRecord) : UUIDIndex :=
  match r.tag with
  | .deleteDimension u => ix.markDeleted u
  | .deleteChart _ => ix

/-- Modelled from the spec: `Reconcile` (section 4.5, step 3): populate the
UUID Index from the surviving Journal Records first, then apply every
surviving deletion record, deletion winning over data. -/
def reconcile (js : List JRecord) (ms : List MetaRecord) : UUIDIndex :=
  ms.foldl applyDeletion ⟨js, []⟩

/-- The next sequence number established after replaying the surviving
metadata-log records. -/
def nextSeqAfter (ms : List MetaRecord) : Nat :=
  match ms.getLast? with
  | some r => r.seq + 1
  | none => 1

/-- The durable on-disk state: metadata-log entries, extent files, journal
entries. -/
structure DiskImage where
  metaSlots : List MetaSlot
  dataFiles : List Extent
  journalSlots : List JSlot
deriving Repr, DecidableEq

/-- The disk contents of an engine state.  Engine-level operations write
complete entries; torn slots arise only from the flush micro-step model
below. -/
def diskOf (st : EngineState) : DiskImage :=
  ⟨st.metaLog.map .entry, st.dataFiles, st.journal.map .entry⟩

/-- Modelled from the spec: the Recovery/Replay Engine (section 4.5): scan
the journals and the metadata log with tail truncation, reconcile them into a
fresh UUID Index (deletions applied last), and start with cold caches. -/
def replayDisk (d : DiskImage) : EngineState :=
  let js := scanJournals d.journalSlots d.dataFiles
  let ms := scanMetadataLog d.metaSlots
  { index := reconcile js ms,
    openPages := [], cachedPages := [], pendingFlush := [],
    nextSeq := nextSeqAfter ms,
    nextExtentId := (d.dataFiles.map (·.id)).foldl max 0 + 1,
    metaLog := ms, dataFiles := d.dataFiles, journal := js }

/-- Modelled from the spec: the states the metadata-log file can be found in
at `metalog_init` time: absent (first start), present but unreadable/corrupt
beyond the recoverable tail, or readable as a list of entries (with a
possibly corrupt tail). -/
inductive MetaLogFile where
  | absent
  | unreadable
  | readable (slots : List MetaSlot)
deriving Repr, DecidableEq

/-- Fatal initialization failure (spec section 7, `FatalInitError`). -/
inductive FatalError where
  | FatalInitError
deriving Repr, DecidableEq

/-- Modelled from the spec: `metalog_init` / `init(engineContext)`
(section 4.4): open or create the log file, replay the existing records into
the UUID Index (marking the recorded UUIDs deleted), and establish the next
sequence number; fail fatally exactly when the log file exists but is
unreadable/corrupt beyond the recoverable tail.  This is the once-only
constructor of the metadata-log state: every other operation consumes the
state it returns. -/
def metalog_init (f : MetaLogFile) (ix : UUIDIndex) :
    Except FatalError (UUIDIndex × Nat) :=
  match f with
  | .absent => .ok (ix, 1)
  | .unreadable => .error .FatalInitError
  | .readable slots =>
    let ms := scanMetadataLog slots
    .ok (ms.foldl applyDeletion ix, nextSeqAfter ms)

/-- The operations of the external interface (spec section 6), plus the two
engine-internal events (flush completion, crash + restart) the claims range
over. -/
inductive EngineOp where
  | append (u : UUID) (ts : Nat) (v : Int) (flags : Nat)
  | deleteDim (u : UUID)
  | deleteChart (c : Chart)
  | flush
  | crashRestart
deriving Repr, DecidableEq

/-- One engine step.  A failing `appendSample` leaves the state unchanged;
`crashRestart` drops the in-memory state and replays the disk. -/
def engineStep (st : EngineState) : EngineOp → EngineState
  | .append u ts v flags =>
    match appendSample st u ts v flags with
    | .ok st2 => st2
    | .error _ => st
  | .deleteDim u => metalog_delete_dimension_by_uuid st u
  | .deleteChart c => metalog_commit_delete_chart st c
  | .flush => flushStep st
  | .crashRestart => replayDisk (diskOf st)

/-- Run of a sequence of engine operations. -/
def engineRun (st : EngineState) (ops : List EngineOp) : EngineState :=
  ops.foldl engineStep st

/-- Whether the records are numbered consecutively starting at `s`. -/
def seqsConsecutive : Nat → List MetaRecord → Bool
  | _, [] => true
  | s, r :: rest => (r.seq == s) && seqsConsecutive (s + 1) rest

/-- Well-formedness of the durable metadata log: records numbered 1, 2, ...
with `nextSeq` one past the end (this is how `metalog_init` sets a fresh
engine up, and every operation preserves it). -/
def engineWf (st : EngineState) : Bool :=
  seqsConsecutive 1 st.metaLog && st.nextSeq == st.metaLog.length + 1

/-- Whether every `DeleteDimension` record of the durable metadata log is
reflected by a deleted mark in the UUID Index. -/
def deletionsMarked (st : EngineState) : Bool :=
  st.metaLog.all (fun r =>
    match r.tag with
    | .deleteDimension u => st.index.isDeleted u
    | .deleteChart _ => true)

/-- The engine invariant: a well-formed metadata log whose deletions are all
marked in the index. -/
def engineInv (st : EngineState) : Bool := engineWf st && deletionsMarked st

/-- Whether the durable metadata log contains a deletion record for `u`
(a `DeleteDimension` record; chart deletions cascade into one per owned
dimension when committed). -/
def hasDeletionFor (st : EngineState) (u : UUID) : Bool :=
  st.metaLog.any (fun r =>
    match r.tag with
    | .deleteDimension w => w == u
    | .deleteChart _ => false)

theorem markDeleted_isDeleted_self (ix : UUIDIndex) (u : UUID) :
    (ix.markDeleted u).isDeleted u = true := by
  unfold UUIDIndex.markDeleted UUIDIndex.isDeleted
  split
  · assumption
  · simp

theorem markDeleted_mono (ix : UUIDIndex) (u v : UUID)
    (h : ix.isDeleted v = true) : (ix.markDeleted u).isDeleted v = true := by
  unfold UUIDIndex.markDeleted UUIDIndex.isDeleted at *
  split
  · exact h
  · simp_all

theorem markDeleted_idem (ix : UUIDIndex) (u : UUID) :
    (ix.markDeleted u).markDeleted u = ix.markDeleted u := by
  unfold UUIDIndex.markDeleted
  by_cases hc : u ∈ ix.deleted
  · simp [hc]
  · simp [hc]

theorem markDeleted_locations (ix : UUIDIndex) (u : UUID) :
    (ix.markDeleted u).locations = ix.locations := by
  unfold UUIDIndex.markDeleted
  split <;> rfl

theorem foldl_markDeleted_mono (ds : List UUID) (ix : UUIDIndex) (v : UUID)
    (h : ix.isDeleted v = true) :
    (ds.foldl (fun ix2 d => ix2.markDeleted d) ix).isDeleted v = true := by
  induction ds generalizing ix with
  | nil => exact h
  | cons d rest ih => exact ih _ (markDeleted_mono ix d v h)

theorem foldl_markDeleted_mem (ds : List UUID) (ix : UUIDIndex) (d : UUID)
    (h : d ∈ ds) :
    (ds.foldl (fun ix2 e => ix2.markDeleted e) ix).isDeleted d = true := by
  induction ds generalizing ix with
  | nil => cases h
  | cons e rest ih =>
    rcases List.mem_cons.mp h with h1 | h2
    · subst h1
      exact foldl_markDeleted_mono rest _ d (markDeleted_isDeleted_self ix d)
    · exact ih _ h2

theorem seqsConsecutive_append (l1 l2 : List MetaRecord) (s : Nat) :
    seqsConsecutive s (l1 ++ l2)
      = (seqsConsecutive s l1 && seqsConsecutive (s + l1.length) l2) := by
  induction l1 generalizing s with
  | nil => simp [seqsConsecutive]
  | cons r t ih =>
    have harith : s + 1 + t.length = s + (t.length + 1) := by omega
    simp [seqsConsecutive, ih, harith, Bool.and_assoc]

theorem dimDeleteRecords_consecutive (ds : List UUID) (s : Nat) :
    seqsConsecutive s (dimDeleteRecords s ds) = true := by
  induction ds generalizing s with
  | nil => rfl
  | cons d rest ih => simp [dimDeleteRecords, seqsConsecutive, ih]

theorem dimDeleteRecords_length (ds : List UUID) (s : Nat) :
    (dimDeleteRecords s ds).length = ds.length := by
  induction ds generalizing s with
  | nil => rfl
  | cons d rest ih => simp [dimDeleteRecords, ih]

theorem chartDeleteRecords_consecutive (c : Chart) (s : Nat) :
    seqsConsecutive s (chartDeleteRecords s c) = true := by
  simp [chartDeleteRecords, seqsConsecutive, dimDeleteRecords_consecutive]

theorem chartDeleteRecords_length (c : Chart) (s : Nat) :
    (chartDeleteRecords s c).length = c.dims.length + 1 := by
  simp [chartDeleteRecords, dimDeleteRecords_length]

theorem mem_dimDeleteRecords (ds : List UUID) (s : Nat) (r : MetaRecord)
    (h : r ∈ dimDeleteRecords s ds) : ∃ d ∈ ds, r.tag = .deleteDimension d := by
  induction ds generalizing s with
  | nil => cases h
  | cons d rest ih =>
    rcases List.mem_cons.mp h with h1 | h2
    · exact ⟨d, List.mem_cons_self _ _, by rw [h1]⟩
    · obtain ⟨e, he, ht⟩ := ih (s + 1) h2
      exact ⟨e, List.mem_cons_of_mem _ he, ht⟩

theorem dimDeleteRecords_cover (ds : List UUID) (s : Nat) (d : UUID)
    (h : d ∈ ds) : ∃ r ∈ dimDeleteRecords s ds, r.tag = .deleteDimension d := by
  induction ds generalizing s with
  | nil => cases h
  | cons e rest ih =>
    rcases List.mem_cons.mp h with h1 | h2
    · subst h1
      exact ⟨⟨s, .deleteDimension d⟩, List.mem_cons_self _ _, rfl⟩
    · obtain ⟨r, hr, ht⟩ := ih (s + 1) h2
      exact ⟨r, List.mem_cons_of_mem _ hr, ht⟩

theorem nextSeqAfter_consecutive (l : List MetaRecord) (s : Nat)
    (h : seqsConsecutive s l = true) (hne : l ≠ []) :
    nextSeqAfter l = s + l.length := by
  induction l generalizing s with
  | nil => cases hne rfl
  | cons r t ih =>
    match t, ih with
    | [], _ =>
      simp only [seqsConsecutive, Bool.and_eq_true, beq_iff_eq] at h
      simp [nextSeqAfter, h.1]
    | q :: t2, ih =>
      simp only [seqsConsecutive, Bool.and_eq_true, beq_iff_eq] at h
      have step : nextSeqAfter (q :: t2) = (s + 1) + (q :: t2).length := by
        apply ih
        · simp [seqsConsecutive, h.2.1, h.2.2]
        · simp
      have hcast : nextSeqAfter (r :: q :: t2) = nextSeqAfter (q :: t2) := by
        simp [nextSeqAfter, List.getLast?_cons_cons]
      rw [hcast, step]
      simp
      omega

theorem scanMetaFrom_all (l : List MetaRecord) (s : Nat)
    (h : seqsConsecutive (s + 1) l = true) :
    scanMetaFrom (some s) (l.map .entry) = l := by
  induction l generalizing s with
  | nil => rfl
  | cons r t ih =>
    simp only [seqsConsecutive, Bool.and_eq_true, beq_iff_eq] at h
    have ht := ih (s + 1) h.2
    simp [scanMetaFrom, h.1, ht]

theorem scanMetadataLog_all (l : List MetaRecord) (s : Nat)
    (h : seqsConsecutive s l = true) :
    scanMetadataLog (l.map .entry) = l := by
  cases l with
  | nil => rfl
  | cons r t =>
    simp only [seqsConsecutive, Bool.and_eq_true, beq_iff_eq] at h
    simp only [scanMetadataLog, List.map_cons, scanMetaFrom]
    rw [scanMetaFrom_all t r.seq (by rw [h.1]; exact h.2)]

theorem foldl_applyDeletion_mono (ms : List MetaRecord) (ix : UUIDIndex) (u : UUID)
    (h : ix.isDeleted u = true) :
    (ms.foldl applyDeletion ix).isDeleted u = true := by
  induction ms generalizing ix with
  | nil => exact h
  | cons r t ih =>
    apply ih
    unfold applyDeletion
    split
    · exact markDeleted_mono _ _ _ h
    · exact h

theorem foldl_applyDeletion_mem (ms : List MetaRecord) (ix : UUIDIndex) (u : UUID)
    (r : MetaRecord) (hr : r ∈ ms) (ht : r.tag = .deleteDimension u) :
    (ms.foldl applyDeletion ix).isDeleted u = true := by
  induction ms generalizing ix with
  | nil => cases hr
  | cons q t ih =>
    rcases List.mem_cons.mp hr with h1 | h2
    · subst h1
      rw [List.foldl_cons]
      apply foldl_applyDeletion_mono
      show (applyDeletion ix r).isDeleted u = true
      unfold applyDeletion
      rw [ht]
      exact markDeleted_isDeleted_self ix u
    · rw [List.foldl_cons]
      exact ih _ h2

theorem foldl_applyDeletion_locations (ms : List MetaRecord) (ix : UUIDIndex) :
    (ms.foldl applyDeletion ix).locations = ix.locations := by
  induction ms generalizing ix with
  | nil => rfl
  | cons r t ih =>
    rw [List.foldl_cons, ih]
    unfold applyDeletion
    split
    · exact markDeleted_locations _ _
    · rfl

theorem appendSample_ok_fields (st st2 : EngineState) (u : UUID) (ts : Nat)
    (v : Int) (fl : Nat) (h : appendSample st u ts v fl = .ok st2) :
    st2.index = st.index ∧ st2.metaLog = st.metaLog ∧ st2.nextSeq = st.nextSeq ∧
    st2.dataFiles = st.dataFiles ∧ st2.journal = st.journal := by
  unfold appendSample at h
  split at h
  · cases h
  · split at h
    · cases h
      exact ⟨rfl, rfl, rfl, rfl, rfl⟩
    · split at h
      · cases h
        exact ⟨rfl, rfl, rfl, rfl, rfl⟩
      · cases h
        exact ⟨rfl, rfl, rfl, rfl, rfl⟩

theorem flushStep_fields (st : EngineState) :
    (flushStep st).metaLog = st.metaLog ∧ (flushStep st).nextSeq = st.nextSeq ∧
    (flushStep st).index.deleted = st.index.deleted := by
  unfold flushStep
  split
  · exact ⟨rfl, rfl, rfl⟩
  · exact ⟨rfl, rfl, rfl⟩

theorem engineInv_congr (st st2 : EngineState)
    (h1 : st2.metaLog = st.metaLog) (h2 : st2.nextSeq = st.nextSeq)
    (h3 : st2.index.deleted = st.index.deleted) :
    engineInv st2 = engineInv st := by
  unfold engineInv engineWf deletionsMarked UUIDIndex.isDeleted
  simp only [h1, h2, h3]

theorem hasDeletionFor_congr (st st2 : EngineState) (u : UUID)
    (h1 : st2.metaLog = st.metaLog) :
    hasDeletionFor st2 u = hasDeletionFor st u := by
  unfold hasDeletionFor
  simp only [h1]

theorem deleteDim_preserves (st : EngineState) (u : UUID)
    (h : engineInv st = true) :
    engineInv (metalog_delete_dimension_by_uuid st u) = true := by
  simp only [engineInv, engineWf, deletionsMarked, Bool.and_eq_true, List.all_eq_true,
    beq_iff_eq] at h
  obtain ⟨⟨hseq, hnext⟩, hmark⟩ := h
  simp only [engineInv, engineWf, deletionsMarked, Bool.and_eq_true, List.all_eq_true,
    beq_iff_eq, metalog_delete_dimension_by_uuid]
  refine ⟨⟨?_, ?_⟩, ?_⟩
  · rw [seqsConsecutive_append]
    simp [hseq, seqsConsecutive, hnext, Nat.add_comm]
  · simp [hnext]
  · intro r hr
    rcases List.mem_append.mp hr with h1 | h2
    · have := hmark r h1
      cases htag : r.tag with
      | deleteChart cid => simp [htag]
      | deleteDimension w =>
        rw [htag] at this
        simp only [htag]
        exact markDeleted_mono _ _ _ this
    · rcases List.mem_singleton.mp h2 with rfl
      simpa using markDeleted_isDeleted_self st.index u

theorem deleteChart_preserves (st : EngineState) (c : Chart)
    (h : engineInv st = true) :
    engineInv (metalog_commit_delete_chart st c) = true := by
  simp only [engineInv, engineWf, deletionsMarked, Bool.and_eq_true, List.all_eq_true,
    beq_iff_eq] at h
  obtain ⟨⟨hseq, hnext⟩, hmark⟩ := h
  simp only [engineInv, engineWf, deletionsMarked, Bool.and_eq_true, List.all_eq_true,
    beq_iff_eq, metalog_commit_delete_chart]
  refine ⟨⟨?_, ?_⟩, ?_⟩
  · rw [seqsConsecutive_append]
    have : st.nextSeq = 1 + st.metaLog.length := by omega
    simp [hseq, this, chartDeleteRecords_consecutive]
  · simp [chartDeleteRecords_length, hnext]
    omega
  · intro r hr
    rcases List.mem_append.mp hr with h1 | h2
    · have := hmark r h1
      cases htag : r.tag with
      | deleteChart cid => simp [htag]
      | deleteDimension w =>
        rw [htag] at this
        simp only [htag]
        exact foldl_markDeleted_mono _ _ _ this
    · simp only [chartDeleteRecords] at h2
      rcases List.mem_cons.mp h2 with h3 | h4
      · simp [h3]
      · obtain ⟨d, hd, htag⟩ := mem_dimDeleteRecords _ _ _ h4
        simp only [htag]
        exact foldl_markDeleted_mem _ _ _ hd

theorem flushStep_preserves (st : EngineState) (h : engineInv st = true) :
    engineInv (flushStep st) = true := by
  obtain ⟨h1, h2, h3⟩ := flushStep_fields st
  rw [engineInv_congr _ _ h1 h2 h3]
  exact h

theorem replayDisk_diskOf_metaLog (st : EngineState)
    (hseq : seqsConsecutive 1 st.metaLog = true) :
    (replayDisk (diskOf st)).metaLog = st.metaLog := by
  unfold replayDisk diskOf
  exact scanMetadataLog_all st.metaLog 1 hseq

theorem replayDisk_preserves (st : EngineState) (h : engineInv st = true) :
    engineInv (replayDisk (diskOf st)) = true := by
  simp only [engineInv, engineWf, deletionsMarked, Bool.and_eq_true, List.all_eq_true,
    beq_iff_eq] at h
  obtain ⟨⟨hseq, hnext⟩, hmark⟩ := h
  have hms : (replayDisk (diskOf st)).metaLog = st.metaLog :=
    replayDisk_diskOf_metaLog st hseq
  simp only [engineInv, engineWf, deletionsMarked, Bool.and_eq_true, List.all_eq_true,
    beq_iff_eq]
  refine ⟨⟨?_, ?_⟩, ?_⟩
  · rw [hms]
    exact hseq
  · rw [hms]
    show nextSeqAfter (scanMetadataLog (diskOf st).metaSlots) = st.metaLog.length + 1
    have hscan : scanMetadataLog (diskOf st).metaSlots = st.metaLog :=
      scanMetadataLog_all st.metaLog 1 hseq
    rw [hscan]
    cases hml : st.metaLog with
    | nil => simp [nextSeqAfter]
    | cons r t =>
      have := nextSeqAfter_consecutive (r :: t) 1 (by rw [← hml]; exact hseq) (by simp)
      rw [this]
      simp
      omega
  · intro r hr
    rw [hms] at hr
    cases htag : r.tag with
    | deleteChart cid => simp [htag]
    | deleteDimension w =>
      simp only [htag]
      show (replayDisk (diskOf st)).index.isDeleted w = true
      unfold replayDisk
      have hscan : scanMetadataLog (diskOf st).metaSlots = st.metaLog :=
        scanMetadataLog_all st.metaLog 1 hseq
      simp only [hscan]
      exact foldl_applyDeletion_mem st.metaLog _ w r hr htag

theorem engineStep_preserves (st : EngineState) (op : EngineOp)
    (h : engineInv st = true) :
    engineInv (engineStep st op) = true ∧
    ∀ u, hasDeletionFor st u = true → hasDeletionFor (engineStep st op) u = true := by
  cases op with
  | append u ts v fl =>
    cases hap : appendSample st u ts v fl with
    | error e =>
      simp only [engineStep, hap]
      exact ⟨h, fun w hw => hw⟩
    | ok st2 =>
      obtain ⟨f1, f2, f3, f4, f5⟩ := appendSample_ok_fields st st2 u ts v fl hap
      constructor
      · simp only [engineStep, hap]
        rw [engineInv_congr st st2 f2 f3 (by rw [f1])]
        exact h
      · intro w hw
        simp only [engineStep, hap]
        rw [hasDeletionFor_congr st st2 w f2]
        exact hw
  | deleteDim u =>
    refine ⟨deleteDim_preserves st u h, ?_⟩
    intro w hw
    show hasDeletionFor (metalog_delete_dimension_by_uuid st u) w = true
    unfold hasDeletionFor metalog_delete_dimension_by_uuid at *
    simp only [List.any_append, Bool.or_eq_true]
    exact Or.inl hw
  | deleteChart c =>
    refine ⟨deleteChart_preserves st c h, ?_⟩
    intro w hw
    show hasDeletionFor (metalog_commit_delete_chart st c) w = true
    unfold hasDeletionFor metalog_commit_delete_chart at *
    simp only [List.any_append, Bool.or_eq_true]
    exact Or.inl hw
  | flush =>
    refine ⟨flushStep_preserves st h, ?_⟩
    intro w hw
    show hasDeletionFor (flushStep st) w = true
    rw [hasDeletionFor_congr st (flushStep st) w (flushStep_fields st).1]
    exact hw
  | crashRestart =>
    refine ⟨replayDisk_preserves st h, ?_⟩
    intro w hw
    have hseq : seqsConsecutive 1 st.metaLog = true := by
      simp only [engineInv, engineWf, Bool.and_eq_true] at h
      exact h.1.1
    show hasDeletionFor (replayDisk (diskOf st)) w = true
    rw [hasDeletionFor_congr st _ w (replayDisk_diskOf_metaLog st hseq)]
    exact hw

theorem engineRun_preserves (ops : List EngineOp) (st : EngineState) (u : UUID)
    (h : engineInv st = true) (hd : hasDeletionFor st u = true) :
    engineInv (engineRun st ops) = true ∧ hasDeletionFor (engineRun st ops) u = true := by
  induction ops generalizing st with
  | nil => exact ⟨h, hd⟩
  | cons op rest ih =>
    have hstep := engineStep_preserves st op h
    exact ih (engineStep st op) hstep.1 (hstep.2 u hd)

theorem hasDeletionFor_isDeleted (st : EngineState) (u : UUID)
    (hm : deletionsMarked st = true) (hd : hasDeletionFor st u = true) :
    st.index.isDeleted u = true := by
  simp only [deletionsMarked, List.all_eq_true] at hm
  simp only [hasDeletionFor, List.any_eq_true] at hd
  obtain ⟨r, hr, hp⟩ := hd
  have hmr := hm r hr
  cases htag : r.tag with
  | deleteChart cid =>
    rw [htag] at hp
    simp at hp
  | deleteDimension w =>
    rw [htag] at hp hmr
    simp only [beq_iff_eq] at hp
    rw [← hp]
    simpa using hmr

/-- C1: once a deletion record for MetricUUID `u` is durably appended to the
Metadata Log (directly, or as part of a chart-deletion cascade), every
subsequent operation observes `u` as deleted: after any further sequence of
engine operations -- appends, deletions, flushes and crash/restart cycles
included -- `appendSample` on `u` returns `UnknownMetric` and `readRange` on
`u` returns the empty sequence, regardless of the data Extents still present
on disk. -/
theorem deletion_record_is_permanent (st : EngineState) (u : UUID)
    (ops : List EngineOp) (ts : Nat) (v : Int) (fl : Nat) (t1 t2 : Nat)
    (hInv : engineInv st = true) (hDel : hasDeletionFor st u = true) :
    appendSample (engineRun st ops) u ts v fl = .error .UnknownMetric ∧
    readRange (engineRun st ops) u t1 t2 = [] := by
  obtain ⟨hInv2, hDel2⟩ := engineRun_preserves ops st u hInv hDel
  have hdel : (engineRun st ops).index.isDeleted u = true := by
    apply hasDeletionFor_isDeleted _ _ _ hDel2
    simp only [engineInv, Bool.and_eq_true] at hInv2
    exact hInv2.2
  constructor
  · unfold appendSample
    rw [if_pos hdel]
  · unfold readRange
    rw [if_pos hdel]

/-- State with a flushed data extent for uuid 7 and a durable deletion record
for 7 appended afterwards. -/
def c1WitnessState : EngineState :=
  engineRun initialEngine [.append 7 1 2 0, .append 7 5000 3 0, .flush, .deleteDim 7]

/-- Witness for C1: even though an extent holding data for uuid 7 still
exists on disk, after a crash/restart the engine reports `UnknownMetric` on
append and reads back nothing. -/
theorem deletion_record_is_permanent_witness :
    engineInv c1WitnessState = true ∧ hasDeletionFor c1WitnessState 7 = true ∧
    c1WitnessState.dataFiles ≠ [] ∧
    appendSample (engineRun c1WitnessState [.crashRestart]) 7 9 9 0 = .error .UnknownMetric ∧
    readRange (engineRun c1WitnessState [.crashRestart]) 7 0 100 = [] := by
  have h := deletion_record_is_permanent c1WitnessState 7 [.crashRestart] 9 9 0 0 100
    (by decide) (by decide)
  exact ⟨by decide, by decide, by decide, h.1, h.2⟩

theorem markDeleted_noop (ix : UUIDIndex) (u : UUID)
    (h : ix.isDeleted u = true) : ix.markDeleted u = ix := by
  unfold UUIDIndex.markDeleted UUIDIndex.isDeleted at *
  rw [if_pos h]

theorem seqsConsecutive_chain (l : List MetaRecord) (s : Nat)
    (h : seqsConsecutive s l = true) :
    List.Chain' (fun a b => a.seq < b.seq) l := by
  induction l generalizing s with
  | nil => simp
  | cons r t ih =>
    cases t with
    | nil => simp
    | cons q t2 =>
      simp only [seqsConsecutive, Bool.and_eq_true, beq_iff_eq] at h
      rw [List.chain'_cons]
      refine ⟨by omega, ?_⟩
      apply ih (s + 1)
      simp [seqsConsecutive, h.2.1, h.2.2]

/-- C2: `commitDeleteChart` on a chart with D owned dimensions appends, in
one durable batch, exactly one `DeleteChart` record followed by exactly one
`DeleteDimension` record per dimension (D + 1 records with strictly
increasing sequence numbers), marks every owned UUID deleted in the index
before returning, and the deletion survives a crash immediately after the
call returns: replay leaves every owned UUID deleted. -/
theorem commit_delete_chart_appends_batch (st : EngineState) (c : Chart)
    (h : engineInv st = true) :
    (metalog_commit_delete_chart st c).metaLog
        = st.metaLog ++ chartDeleteRecords st.nextSeq c
  ∧ chartDeleteRecords st.nextSeq c
        = ⟨st.nextSeq, .deleteChart c.id⟩ :: dimDeleteRecords (st.nextSeq + 1) c.dims
  ∧ (chartDeleteRecords st.nextSeq c).length = c.dims.length + 1
  ∧ (dimDeleteRecords (st.nextSeq + 1) c.dims).length = c.dims.length
  ∧ List.Chain' (fun a b => a.seq < b.seq) (chartDeleteRecords st.nextSeq c)
  ∧ (∀ d ∈ c.dims, (metalog_commit_delete_chart st c).index.isDeleted d = true)
  ∧ (∀ d ∈ c.dims,
      (replayDisk (diskOf (metalog_commit_delete_chart st c))).index.isDeleted d = true)
  ∧ engineInv (metalog_commit_delete_chart st c) = true := by
  have hinv2 := deleteChart_preserves st c h
  refine ⟨rfl, rfl, chartDeleteRecords_length c st.nextSeq,
    dimDeleteRecords_length c.dims (st.nextSeq + 1),
    seqsConsecutive_chain _ st.nextSeq (chartDeleteRecords_consecutive c st.nextSeq),
    ?_, ?_, hinv2⟩
  · intro d hd
    exact foldl_markDeleted_mem c.dims st.index d hd
  · intro d hd
    have hdel : hasDeletionFor (metalog_commit_delete_chart st c) d = true := by
      unfold hasDeletionFor metalog_commit_delete_chart
      simp only [List.any_append, Bool.or_eq_true]
      right
      obtain ⟨r, hr, ht⟩ := dimDeleteRecords_cover c.dims (st.nextSeq + 1) d hd
      refine List.any_eq_true.mpr ⟨r, List.mem_cons_of_mem _ hr, ?_⟩
      simp [ht]
    have hpres := engineStep_preserves (metalog_commit_delete_chart st c) .crashRestart hinv2
    have hinvr := hpres.1
    have hdelr := hpres.2 d hdel
    apply hasDeletionFor_isDeleted _ _ _ hdelr
    simp only [engineInv, Bool.and_eq_true] at hinvr
    exact hinvr.2

/-- Witness for C2 on a chart with 3 dimensions: the batch is appended to the
log (1 DeleteChart + 3 DeleteDimension records). -/
theorem commit_delete_chart_appends_batch_witness :
    (metalog_commit_delete_chart initialEngine ⟨1, [2, 3, 4]⟩).metaLog
      = initialEngine.metaLog ++ chartDeleteRecords initialEngine.nextSeq ⟨1, [2, 3, 4]⟩ :=
  (commit_delete_chart_appends_batch initialEngine ⟨1, [2, 3, 4]⟩ (by decide)).1

/-- C3: `deleteDimensionByUUID` is idempotent up to log growth: a second
deletion of the same UUID leaves the UUID Index identical, `appendSample`
still fails with `UnknownMetric`, `readRange` is unchanged for every metric
and range, and the replayed (post-crash) index is identical -- while the log
grows by exactly the one redundant record and the sequence number still
advances.  `markDeleted` itself is idempotent. -/
theorem delete_dimension_idempotent (st : EngineState) (u : UUID)
    (h : engineInv st = true) :
    (metalog_delete_dimension_by_uuid (metalog_delete_dimension_by_uuid st u) u).index
        = (metalog_delete_dimension_by_uuid st u).index
  ∧ (∀ (ts : Nat) (v : Int) (fl : Nat),
      appendSample (metalog_delete_dimension_by_uuid (metalog_delete_dimension_by_uuid st u) u)
          u ts v fl = .error .UnknownMetric ∧
      appendSample (metalog_delete_dimension_by_uuid st u) u ts v fl = .error .UnknownMetric)
  ∧ (∀ (w : UUID) (t1 t2 : Nat),
      readRange (metalog_delete_dimension_by_uuid (metalog_delete_dimension_by_uuid st u) u)
          w t1 t2
        = readRange (metalog_delete_dimension_by_uuid st u) w t1 t2)
  ∧ (replayDisk (diskOf
        (metalog_delete_dimension_by_uuid (metalog_delete_dimension_by_uuid st u) u))).index
        = (replayDisk (diskOf (metalog_delete_dimension_by_uuid st u))).index
  ∧ (metalog_delete_dimension_by_uuid (metalog_delete_dimension_by_uuid st u) u).metaLog.length
        = (metalog_delete_dimension_by_uuid st u).metaLog.length + 1
  ∧ (metalog_delete_dimension_by_uuid (metalog_delete_dimension_by_uuid st u) u).nextSeq
        = (metalog_delete_dimension_by_uuid st u).nextSeq + 1
  ∧ (∀ (ix : UUIDIndex) (w : UUID), (ix.markDeleted w).markDeleted w = ix.markDeleted w) := by
  have hidx :
      (metalog_delete_dimension_by_uuid (metalog_delete_dimension_by_uuid st u) u).index
        = (metalog_delete_dimension_by_uuid st u).index :=
    markDeleted_idem st.index u
  have hdel1 : (metalog_delete_dimension_by_uuid st u).index.isDeleted u = true :=
    markDeleted_isDeleted_self st.index u
  have hdel2 :
      (metalog_delete_dimension_by_uuid (metalog_delete_dimension_by_uuid st u) u).index.isDeleted
        u = true :=
    markDeleted_isDeleted_self (metalog_delete_dimension_by_uuid st u).index u
  have hinv1 := deleteDim_preserves st u h
  have hinv2 := deleteDim_preserves _ u hinv1
  have hseq1 : seqsConsecutive 1 (metalog_delete_dimension_by_uuid st u).metaLog = true := by
    simp only [engineInv, engineWf, Bool.and_eq_true] at hinv1
    exact hinv1.1.1
  have hseq2 : seqsConsecutive 1
      (metalog_delete_dimension_by_uuid (metalog_delete_dimension_by_uuid st u) u).metaLog
        = true := by
    simp only [engineInv, engineWf, Bool.and_eq_true] at hinv2
    exact hinv2.1.1
  have hscan1 := scanMetadataLog_all _ 1 hseq1
  have hscan2 := scanMetadataLog_all _ 1 hseq2
  have hmem : (⟨st.nextSeq, MetaTag.deleteDimension u⟩ : MetaRecord)
      ∈ (metalog_delete_dimension_by_uuid st u).metaLog := by
    show _ ∈ st.metaLog ++ [⟨st.nextSeq, MetaTag.deleteDimension u⟩]
    simp
  refine ⟨hidx, ?_, ?_, ?_, by simp [metalog_delete_dimension_by_uuid], rfl,
    fun ix w => markDeleted_idem ix w⟩
  · intro ts v fl
    constructor
    · unfold appendSample
      rw [if_pos hdel2]
    · unfold appendSample
      rw [if_pos hdel1]
  · intro w t1 t2
    unfold readRange
    simp only [hidx]
    rfl
  · have core : ∀ (js : List JRecord),
        reconcile js ((metalog_delete_dimension_by_uuid st u).metaLog
            ++ [⟨(metalog_delete_dimension_by_uuid st u).nextSeq, MetaTag.deleteDimension u⟩])
          = reconcile js (metalog_delete_dimension_by_uuid st u).metaLog := by
      intro js
      unfold reconcile
      rw [List.foldl_append]
      simp only [List.foldl_cons, List.foldl_nil]
      exact markDeleted_noop _ u (foldl_applyDeletion_mem _ _ u _ hmem rfl)
    show reconcile
        (scanJournals
          ((metalog_delete_dimension_by_uuid (metalog_delete_dimension_by_uuid st u) u).journal.map
            .entry)
          (metalog_delete_dimension_by_uuid (metalog_delete_dimension_by_uuid st u) u).dataFiles)
        (scanMetadataLog
          ((metalog_delete_dimension_by_uuid (metalog_delete_dimension_by_uuid st u) u).metaLog.map
            .entry))
      = reconcile
        (scanJournals ((metalog_delete_dimension_by_uuid st u).journal.map .entry)
          (metalog_delete_dimension_by_uuid st u).dataFiles)
        (scanMetadataLog ((metalog_delete_dimension_by_uuid st u).metaLog.map .entry))
    rw [hscan1, hscan2]
    exact core _

/-- Witness for C3: a concrete double deletion leaves the index of the single
deletion unchanged. -/
theorem delete_dimension_idempotent_witness :
    (metalog_delete_dimension_by_uuid (metalog_delete_dimension_by_uuid initialEngine 5) 5).index
      = (metalog_delete_dimension_by_uuid initialEngine 5).index :=
  (delete_dimension_idempotent initialEngine 5 (by decide)).1

/-- C4: `metalog_init` -- the once-only entry point that every other
metadata-log operation's state flows from -- fails fatally exactly when the
log file exists but is unreadable beyond the recoverable tail; on an absent
file it creates a fresh log with next sequence number 1; on a readable file
it replays the surviving records into the UUID Index (marking every recorded
UUID deleted) and establishes the next sequence number from the last
surviving record. -/
theorem metalog_init_spec (slots : List MetaSlot) (ix : UUIDIndex) :
    metalog_init .unreadable ix = .error .FatalInitError
  ∧ (∀ f : MetaLogFile, (∃ e, metalog_init f ix = .error e) ↔ f = .unreadable)
  ∧ metalog_init .absent ix = .ok (ix, 1)
  ∧ metalog_init (.readable slots) ix
      = .ok ((scanMetadataLog slots).foldl applyDeletion ix,
             nextSeqAfter (scanMetadataLog slots))
  ∧ (∀ (u : UUID) (r : MetaRecord), r ∈ scanMetadataLog slots →
      r.tag = .deleteDimension u →
      ((scanMetadataLog slots).foldl applyDeletion ix).isDeleted u = true) := by
  refine ⟨rfl, ?_, rfl, rfl, ?_⟩
  · intro f
    cases f <;> simp [metalog_init]
    exact ⟨.FatalInitError, trivial⟩
  · intro u r hr ht
    exact foldl_applyDeletion_mem _ _ u r hr ht

/-- Witness for C4: replaying a one-record log marks the recorded UUID
deleted and initialization succeeds. -/
theorem metalog_init_spec_witness :
    metalog_init (MetaLogFile.readable [.entry ⟨1, .deleteDimension 9⟩]) ⟨[], []⟩
      = .ok ((scanMetadataLog [.entry ⟨1, .deleteDimension 9⟩]).foldl applyDeletion ⟨[], []⟩,
             nextSeqAfter (scanMetadataLog [.entry ⟨1, .deleteDimension 9⟩]))
  ∧ ((scanMetadataLog [.entry ⟨1, .deleteDimension 9⟩]).foldl applyDeletion
        (⟨[], []⟩ : UUIDIndex)).isDeleted 9 = true := by
  have h := metalog_init_spec [.entry ⟨1, .deleteDimension 9⟩] ⟨[], []⟩
  exact ⟨h.2.2.2.1, h.2.2.2.2 9 ⟨1, .deleteDimension 9⟩ (by decide) rfl⟩

theorem engineRun_inv (ops : List EngineOp) (st : EngineState)
    (h : engineInv st = true) : engineInv (engineRun st ops) = true := by
  induction ops generalizing st with
  | nil => exact h
  | cons op rest ih => exact ih _ (engineStep_preserves st op h).1

theorem scanMetaFrom_truncate (pre : List MetaRecord) (s : Nat) (bad : MetaSlot)
    (rest : List MetaSlot)
    (hpre : seqsConsecutive (s + 1) pre = true)
    (hbad : bad = .unreadable ∨
      ∀ r2 : MetaRecord, bad = .entry r2 → r2.seq ≠ s + pre.length + 1) :
    scanMetaFrom (some s) (pre.map .entry ++ bad :: rest) = pre := by
  induction pre generalizing s with
  | nil =>
    rcases hbad with hb | hb
    · subst hb
      rfl
    · cases bad with
      | unreadable => rfl
      | entry r2 =>
        have hne := hb r2 rfl
        simp only [List.length_nil, Nat.add_zero] at hne
        simp [scanMetaFrom, hne]
  | cons r t ih =>
    simp only [seqsConsecutive, Bool.and_eq_true, beq_iff_eq] at hpre
    have hbad2 : bad = .unreadable ∨
        ∀ r2 : MetaRecord, bad = .entry r2 → r2.seq ≠ (s + 1) + t.length + 1 := by
      rcases hbad with hb | hb
      · exact Or.inl hb
      · right
        intro r2 he
        have := hb r2 he
        simp only [List.length_cons] at this
        omega
    have ht := ih (s + 1) hpre.2 hbad2
    simp [scanMetaFrom, hpre.1, ht]

theorem scanMetadataLog_truncates (pre : List MetaRecord) (s : Nat) (bad : MetaSlot)
    (rest : List MetaSlot) (hpre : seqsConsecutive s pre = true) (hne : pre ≠ [])
    (hbad : bad = .unreadable ∨
      ∀ r2 : MetaRecord, bad = .entry r2 → r2.seq ≠ s + pre.length) :
    scanMetadataLog (pre.map .entry ++ bad :: rest) = pre := by
  cases pre with
  | nil => cases hne rfl
  | cons r t =>
    simp only [seqsConsecutive, Bool.and_eq_true, beq_iff_eq] at hpre
    have hbad2 : bad = .unreadable ∨
        ∀ r2 : MetaRecord, bad = .entry r2 → r2.seq ≠ r.seq + t.length + 1 := by
      rcases hbad with hb | hb
      · exact Or.inl hb
      · right
        intro r2 he
        have := hb r2 he
        simp only [List.length_cons] at this
        omega
    have ht := scanMetaFrom_truncate t r.seq bad rest (by rw [hpre.1]; exact hpre.2) hbad2
    simp [scanMetadataLog, scanMetaFrom, ht]

/-- C7: in every reachable engine state the Metadata Log's sequence numbers
are strictly increasing in append order; when a deletion record and a late
data write (journal record) for the same MetricUUID are both durable, replay
leaves the UUID deleted (deletion wins); and the metadata-log scan reads
records in sequence order, truncating at the first record whose sequence
number is discontinuous or unreadable and discarding everything after it. -/
theorem metadata_log_sequence_invariant (st : EngineState) (ops : List EngineOp)
    (u : UUID) (hInv : engineInv st = true) :
    List.Chain' (fun a b => a.seq < b.seq) (engineRun st ops).metaLog
  ∧ (∀ jr ∈ (engineRun st ops).journal, jr.uuid = u →
      hasDeletionFor (engineRun st ops) u = true →
      (replayDisk (diskOf (engineRun st ops))).index.isDeleted u = true)
  ∧ (∀ (pre : List MetaRecord) (s : Nat) (bad : MetaSlot) (rest : List MetaSlot),
      seqsConsecutive s pre = true → pre ≠ [] →
      (bad = .unreadable ∨
        ∀ r2 : MetaRecord, bad = .entry r2 → r2.seq ≠ s + pre.length) →
      scanMetadataLog (pre.map .entry ++ bad :: rest) = pre) := by
  have hrun : engineInv (engineRun st ops) = true := engineRun_inv ops st hInv
  have hseq : seqsConsecutive 1 (engineRun st ops).metaLog = true := by
    simp only [engineInv, engineWf, Bool.and_eq_true] at hrun
    exact hrun.1.1
  refine ⟨seqsConsecutive_chain _ 1 hseq, ?_, ?_⟩
  · intro jr hjr hju hdel
    have hpres := engineStep_preserves (engineRun st ops) .crashRestart hrun
    apply hasDeletionFor_isDeleted _ _ _ (hpres.2 u hdel)
    have := hpres.1
    simp only [engineInv, Bool.and_eq_true] at this
    exact this.2
  · intro pre s bad rest h1 h2 h3
    exact scanMetadataLog_truncates pre s bad rest h1 h2 h3

/-- Witness for C7: a run that flushes data for uuid 7 and then deletes it;
the log's sequence numbers are strictly increasing, replay leaves 7 deleted
although a journal record for 7 exists, and the scan truncates a log at an
unreadable slot. -/
theorem metadata_log_sequence_invariant_witness :
    List.Chain' (fun a b => a.seq < b.seq)
      (engineRun initialEngine
        [.append 7 1 2 0, .append 7 5000 3 0, .flush, .deleteDim 7]).metaLog
  ∧ (replayDisk (diskOf (engineRun initialEngine
      [.append 7 1 2 0, .append 7 5000 3 0, .flush, .deleteDim 7]))).index.isDeleted 7 = true
  ∧ scanMetadataLog
      ([(⟨1, .deleteDimension 7⟩ : MetaRecord)].map .entry ++ .unreadable :: [])
      = [⟨1, .deleteDimension 7⟩] := by
  have h := metadata_log_sequence_invariant initialEngine
    [.append 7 1 2 0, .append 7 5000 3 0, .flush, .deleteDim 7] 7 (by decide)
  exact ⟨h.1, h.2.1 ⟨7, 1, 1, 1, 0⟩ (by decide) rfl (by decide),
    h.2.2 [⟨1, .deleteDimension 7⟩] 1 .unreadable [] (by decide) (by decide) (Or.inl rfl)⟩

/-! ### Flush micro-steps and crash states

The durability-ordering claims concern what happens inside one `flush`: the
spec (section 4.3) prescribes writing the checksummed Extent as a single
atomic append, fsyncing the data file, then appending one Journal Record per
Page and fsyncing the journal.  The model below makes each of these four
micro-steps explicit, and lets a crash happen between any two of them, with
any subset of the not-yet-fsynced writes surviving (possibly torn). -/

/-- Modelled from the spec: the write/fsync micro-operations performed by the
missing extent/journal writer during one `flush` (section 4.3). -/
inductive DiskOp where
  | writeExtent (e : Extent)
  | fsyncData
  | writeJournal (r : JRecord)
  | fsyncJournal
deriving Repr, DecidableEq

/-- Disk state during flushing: for each of the two files, the writes already
made durable by an fsync, and the volatile (written but not yet fsynced)
tail. -/
structure DiskWState where
  dataDurable : List Extent
  dataVolatile : List Extent
  jDurable : List JRecord
  jVolatile : List JRecord
deriving Repr, DecidableEq

def emptyDiskW : DiskWState := ⟨[], [], [], []⟩

/-- Effect of one micro-operation: appends go to the volatile tail of their
file; an fsync makes that file's volatile tail durable. -/
def applyDiskOp (s : DiskWState) : DiskOp → DiskWState
  | .writeExtent e => { s with dataVolatile := s.dataVolatile ++ [e] }
  | .fsyncData => { s with dataDurable := s.dataDurable ++ s.dataVolatile, dataVolatile := [] }
  | .writeJournal r => { s with jVolatile := s.jVolatile ++ [r] }
  | .fsyncJournal => { s with jDurable := s.jDurable ++ s.jVolatile, jVolatile := [] }

def runDiskOps (s : DiskWState) (l : List DiskOp) : DiskWState := l.foldl applyDiskOp s

/-- Modelled from the spec: the micro-operation sequence of one
`flush(pages)` into extent `eid` (section 4.3): one atomic extent append with
its checksum trailer, fsync of the data file, one journal append per page,
fsync of the journal -- journal-after-data order. -/
def flushOps (eid : Nat) (pages : List Page) : List DiskOp :=
  DiskOp.writeExtent (mkExtent eid pages) :: DiskOp.fsyncData ::
    ((mkJRecords eid pages).map DiskOp.writeJournal ++ [DiskOp.fsyncJournal])

/-- Keep the elements of `l` whose position is masked `true` (an arbitrary
subset of the volatile writes may survive a crash). -/
def maskFilter : List α → List Bool → List α
  | [], _ => []
  | _ :: _, [] => []
  | a :: as, b :: bs => (if b then [a] else []) ++ maskFilter as bs

/-- Extents readable after a crash: everything durable plus a mask-chosen
subset of the volatile writes. -/
def crashData (s : DiskWState) (m : List Bool) : List Extent :=
  s.dataDurable ++ maskFilter s.dataVolatile m

/-- Journal records readable after a crash: everything durable plus a
mask-chosen subset of the volatile writes. -/
def crashJournalRecs (s : DiskWState) (m : List Bool) : List JRecord :=
  s.jDurable ++ maskFilter s.jVolatile m

theorem maskFilter_subset (l : List α) (m : List Bool) (a : α)
    (h : a ∈ maskFilter l m) : a ∈ l := by
  induction l generalizing m with
  | nil => cases m <;> cases h
  | cons x xs ih =>
    cases m with
    | nil => cases h
    | cons b bs =>
      simp only [maskFilter] at h
      rcases List.mem_append.mp h with h1 | h2
      · split at h1
        · simp at h1
          simp [h1]
        · cases h1
      · exact List.mem_cons_of_mem _ (ih bs h2)

theorem mem_mkJRecordsFrom_extentId (pages : List Page) (eid idx : Nat) (r : JRecord)
    (h : r ∈ mkJRecordsFrom eid idx pages) : r.extentId = eid := by
  induction pages generalizing idx with
  | nil => cases h
  | cons p rest ih =>
    rcases List.mem_cons.mp h with h1 | h2
    · rw [h1]
      rfl
    · exact ih _ h2

theorem runDiskOps_writeJournals (rs : List JRecord) (s : DiskWState) :
    runDiskOps s (rs.map DiskOp.writeJournal)
      = { s with jVolatile := s.jVolatile ++ rs } := by
  induction rs generalizing s with
  | nil => simp [runDiskOps]
  | cons r t ih =>
    show runDiskOps (applyDiskOp s (.writeJournal r)) (t.map DiskOp.writeJournal) = _
    rw [ih]
    simp [applyDiskOp]

theorem runDiskOps_writeJournals_take (rs : List JRecord) (m : Nat) (s : DiskWState) :
    runDiskOps s ((rs.map DiskOp.writeJournal).take m)
      = { s with jVolatile := s.jVolatile ++ rs.take m } := by
  induction rs generalizing m s with
  | nil => simp [runDiskOps]
  | cons r t ih =>
    cases m with
    | zero => simp [runDiskOps]
    | succ m2 =>
      show runDiskOps (applyDiskOp s (.writeJournal r)) ((t.map DiskOp.writeJournal).take m2) = _
      rw [ih]
      simp [applyDiskOp]

theorem runDiskOps_append (s : DiskWState) (l1 l2 : List DiskOp) :
    runDiskOps s (l1 ++ l2) = runDiskOps (runDiskOps s l1) l2 :=
  List.foldl_append ..

/-- Characterization of every state reachable while one `flush` is in
progress (crash point `k`): either the extent is not yet durable and no
journal write has happened at all, or the extent is durable and the journal
writes (volatile or already fsynced) are among this flush's records. -/
theorem flush_crash_states (eid : Nat) (pages : List Page) (s0 : DiskWState) (k : Nat)
    (hdv : s0.dataVolatile = []) (hjv : s0.jVolatile = []) :
    ((runDiskOps s0 ((flushOps eid pages).take k)).dataDurable = s0.dataDurable ∧
      (runDiskOps s0 ((flushOps eid pages).take k)).jDurable = s0.jDurable ∧
      (runDiskOps s0 ((flushOps eid pages).take k)).jVolatile = [] ∧
      (∀ e ∈ (runDiskOps s0 ((flushOps eid pages).take k)).dataVolatile,
        e = mkExtent eid pages))
  ∨ ((runDiskOps s0 ((flushOps eid pages).take k)).dataDurable
        = s0.dataDurable ++ [mkExtent eid pages] ∧
      (∀ r ∈ (runDiskOps s0 ((flushOps eid pages).take k)).jDurable,
        r ∈ s0.jDurable ∨ r ∈ mkJRecords eid pages) ∧
      (∀ r ∈ (runDiskOps s0 ((flushOps eid pages).take k)).jVolatile,
        r ∈ mkJRecords eid pages) ∧
      (∀ e ∈ (runDiskOps s0 ((flushOps eid pages).take k)).dataVolatile,
        e = mkExtent eid pages) ∧
      (runDiskOps s0 ((flushOps eid pages).take k)).dataVolatile = [] ∧
      (∃ tl, (runDiskOps s0 ((flushOps eid pages).take k)).jDurable = s0.jDurable ++ tl ∧
        ∀ r ∈ tl, r ∈ mkJRecords eid pages)) := by
  match k with
  | 0 =>
    left
    refine ⟨rfl, rfl, hjv, fun e he => ?_⟩
    rw [show (runDiskOps s0 ((flushOps eid pages).take 0)).dataVolatile = s0.dataVolatile
      from rfl, hdv] at he
    cases he
  | 1 =>
    left
    refine ⟨rfl, rfl, hjv, fun e he => ?_⟩
    have he2 : e ∈ s0.dataVolatile ++ [mkExtent eid pages] := he
    rw [hdv] at he2
    simpa using he2
  | (m + 2) =>
    right
    have hstep : runDiskOps s0 ((flushOps eid pages).take (m + 2))
        = runDiskOps
            (applyDiskOp (applyDiskOp s0 (.writeExtent (mkExtent eid pages))) .fsyncData)
            (((mkJRecords eid pages).map DiskOp.writeJournal ++ [DiskOp.fsyncJournal]).take m) :=
      rfl
    have hs2 : applyDiskOp (applyDiskOp s0 (.writeExtent (mkExtent eid pages))) .fsyncData
        = { s0 with dataDurable := s0.dataDurable ++ [mkExtent eid pages],
                    dataVolatile := [], jVolatile := [] } := by
      simp [applyDiskOp, hdv, hjv]
    rw [hstep, hs2, List.take_append_eq_append_take, runDiskOps_append,
      runDiskOps_writeJournals_take]
    cases hrem : m - ((mkJRecords eid pages).map DiskOp.writeJournal).length with
    | zero =>
      refine ⟨rfl, fun r hr => Or.inl hr, fun r hr => ?_,
        fun e he => (by cases show e ∈ ([] : List Extent) from he), rfl,
        ⟨[], by simp [runDiskOps], fun r hr => by cases hr⟩⟩
      exact List.take_subset _ _
        (show r ∈ List.take m (mkJRecords eid pages) from hr)
    | succ n =>
      have htake : List.take (n + 1) [DiskOp.fsyncJournal] = [DiskOp.fsyncJournal] := by
        simp
      rw [htake]
      refine ⟨rfl, fun r hr => ?_, fun r hr => ?_,
        fun e he => (by cases show e ∈ ([] : List Extent) from he), rfl,
        ⟨List.take m (mkJRecords eid pages), rfl, fun r hr => List.take_subset _ _ hr⟩⟩
      · rcases List.mem_append.mp
          (show r ∈ s0.jDurable ++ List.take m (mkJRecords eid pages) from hr) with h1 | h2
        · exact Or.inl h1
        · exact Or.inr (List.take_subset _ _ h2)
      · cases show r ∈ ([] : List JRecord) from hr

/-- C5: journal-after-data durability order inside `flush`.  Starting from a
clean disk state whose durable journal records all reference durable valid
extents, at every crash point of the flush and for every choice of surviving
unsynced writes, every readable Journal Record references an Extent that is
durable with a valid checksum trailer -- in particular the new extent (with
its checksum trailer, written as one atomic append) is durable before any
Journal Record referencing it, and in no reachable state is a Journal Record
durable while its Extent is not. -/
theorem flush_journal_never_durable_before_extent (eid : Nat) (pages : List Page)
    (s0 : DiskWState) (k : Nat) (mD mJ : List Bool)
    (hdv : s0.dataVolatile = []) (hjv : s0.jVolatile = [])
    (h0 : ∀ r ∈ s0.jDurable,
      ∃ e ∈ s0.dataDurable, e.id = r.extentId ∧ e.checksumOk = true) :
    ∀ r ∈ crashJournalRecs (runDiskOps s0 ((flushOps eid pages).take k)) mJ,
      ∃ e ∈ (runDiskOps s0 ((flushOps eid pages).take k)).dataDurable,
        e.id = r.extentId ∧ e.checksumOk = true ∧
        e ∈ crashData (runDiskOps s0 ((flushOps eid pages).take k)) mD := by
  intro r hr
  have hsplit := flush_crash_states eid pages s0 k hdv hjv
  unfold crashJournalRecs at hr
  rcases hsplit with ⟨hd, hjd, hjvk, hdvk⟩ | ⟨hd, hjd, hjvk, hdvk, _, _⟩
  · rcases List.mem_append.mp hr with h1 | h2
    · rw [hjd] at h1
      obtain ⟨e, he, h3, h4⟩ := h0 r h1
      rw [← hd] at he
      exact ⟨e, he, h3, h4, List.mem_append.mpr (Or.inl he)⟩
    · rw [hjvk] at h2
      cases maskFilter_subset _ _ _ h2
  · have hextent : mkExtent eid pages
        ∈ (runDiskOps s0 ((flushOps eid pages).take k)).dataDurable := by
      rw [hd]
      simp
    have hcases : r ∈ s0.jDurable ∨ r ∈ mkJRecords eid pages := by
      rcases List.mem_append.mp hr with h1 | h2
      · exact hjd r h1
      · exact Or.inr (hjvk r (maskFilter_subset _ _ _ h2))
    rcases hcases with h1 | h2
    · obtain ⟨e, he, h3, h4⟩ := h0 r h1
      have he2 : e ∈ (runDiskOps s0 ((flushOps eid pages).take k)).dataDurable := by
        rw [hd]
        exact List.mem_append.mpr (Or.inl he)
      exact ⟨e, he2, h3, h4, List.mem_append.mpr (Or.inl he2)⟩
    · have hid : r.extentId = eid := mem_mkJRecordsFrom_extentId pages eid 0 r h2
      exact ⟨mkExtent eid pages, hextent, by rw [hid]; rfl, rfl,
        List.mem_append.mpr (Or.inl hextent)⟩

/-- Witness for C5: a crash right after the two journal appends of a
two-page flush (before the journal fsync), with both unsynced journal writes
surviving: each readable journal record's extent is durable and valid. -/
theorem flush_journal_never_durable_before_extent_witness :
    ∃ e ∈ crashData
        (runDiskOps emptyDiskW
          ((flushOps 1 [⟨7, [⟨1, 2, 0⟩]⟩, ⟨8, [⟨1, 5, 0⟩]⟩]).take 4)) [],
      e.id = (mkJRecord 1 0 ⟨7, [⟨1, 2, 0⟩]⟩).extentId ∧ e.checksumOk = true := by
  have h := flush_journal_never_durable_before_extent 1 [⟨7, [⟨1, 2, 0⟩]⟩, ⟨8, [⟨1, 5, 0⟩]⟩]
    emptyDiskW 4 [] [true, true] rfl rfl (by intro r hr; cases hr)
    (mkJRecord 1 0 ⟨7, [⟨1, 2, 0⟩]⟩) (by decide)
  obtain ⟨e, _, h3, h4, h5⟩ := h
  exact ⟨e, h5, h3, h4⟩

/-- Modelled from the spec: the fate of one not-yet-fsynced write at a crash:
fully lost, fully persisted, or torn (partially persisted, so checksums or
record framing do not verify). -/
inductive WriteFate where
  | lost
  | intact
  | torn
deriving Repr, DecidableEq

/-- Extents readable after a crash from the volatile tail: an intact write
keeps the extent, a torn one keeps it with an invalid checksum trailer, a
lost one disappears. -/
def fateExtents : List Extent → List WriteFate → List Extent
  | [], _ => []
  | _ :: _, [] => []
  | e :: es, f :: fs =>
    (match f with
     | .lost => []
     | .intact => [e]
     | .torn => [{ e with checksumOk := false }]) ++ fateExtents es fs

/-- Journal slots readable after a crash from the volatile tail: an intact
write keeps the record, a torn one leaves an unreadable slot, a lost one
disappears. -/
def fateJSlots : List JRecord → List WriteFate → List JSlot
  | [], _ => []
  | _ :: _, [] => []
  | r :: rs, f :: fs =>
    (match f with
     | .lost => []
     | .intact => [JSlot.entry r]
     | .torn => [JSlot.torn]) ++ fateJSlots rs fs

/-- All extents readable after a crash. -/
def crashExtents (s : DiskWState) (fd : List WriteFate) : List Extent :=
  s.dataDurable ++ fateExtents s.dataVolatile fd

/-- All journal slots readable after a crash, in file order. -/
def crashJournalSlots (s : DiskWState) (fj : List WriteFate) : List JSlot :=
  s.jDurable.map .entry ++ fateJSlots s.jVolatile fj

/-- Micro-operations of a sequence of complete flushes with consecutive
extent ids starting at `eid`. -/
def flushOpsFrom : Nat → List (List Page) → List DiskOp
  | _, [] => []
  | eid, ps :: rest => flushOps eid ps ++ flushOpsFrom (eid + 1) rest

/-- The extents written by those flushes. -/
def extentsOf : Nat → List (List Page) → List Extent
  | _, [] => []
  | eid, ps :: rest => mkExtent eid ps :: extentsOf (eid + 1) rest

/-- The journal records written by those flushes. -/
def recordsOf : Nat → List (List Page) → List JRecord
  | _, [] => []
  | eid, ps :: rest => mkJRecords eid ps ++ recordsOf (eid + 1) rest

/-- Each flushed page paired with its journal record. -/
def pairsOf : Nat → List (List Page) → List (JRecord × Page)
  | _, [] => []
  | eid, ps :: rest => (mkJRecords eid ps).zip ps ++ pairsOf (eid + 1) rest

theorem fateExtents_mem (es : List Extent) (fs : List WriteFate) (e2 : Extent)
    (h : e2 ∈ fateExtents es fs) :
    ∃ e ∈ es, e2 = e ∨ e2 = { e with checksumOk := false } := by
  induction es generalizing fs with
  | nil => cases fs <;> cases h
  | cons e es2 ih =>
    cases fs with
    | nil => cases h
    | cons f fs2 =>
      simp only [fateExtents] at h
      rcases List.mem_append.mp h with h1 | h2
      · cases f with
        | lost => cases h1
        | intact =>
          simp only [List.mem_singleton] at h1
          exact ⟨e, List.mem_cons_self _ _, Or.inl h1⟩
        | torn =>
          simp only [List.mem_singleton] at h1
          exact ⟨e, List.mem_cons_self _ _, Or.inr h1⟩
      · obtain ⟨e3, he3, hor⟩ := ih fs2 h2
        exact ⟨e3, List.mem_cons_of_mem _ he3, hor⟩

theorem fateJSlots_mem (rs : List JRecord) (fs : List WriteFate) (r : JRecord)
    (h : JSlot.entry r ∈ fateJSlots rs fs) : r ∈ rs := by
  induction rs generalizing fs with
  | nil => cases fs <;> cases h
  | cons q rs2 ih =>
    cases fs with
    | nil => cases h
    | cons f fs2 =>
      simp only [fateJSlots] at h
      rcases List.mem_append.mp h with h1 | h2
      · cases f with
        | lost => cases h1
        | intact =>
          simp only [List.mem_singleton] at h1
          cases h1
          exact List.mem_cons_self _ _
        | torn =>
          simp only [List.mem_singleton] at h1
          cases h1
      · exact List.mem_cons_of_mem _ (ih fs2 h2)

theorem runDiskOps_flushOps (eid : Nat) (ps : List Page) (s : DiskWState)
    (hdv : s.dataVolatile = []) (hjv : s.jVolatile = []) :
    runDiskOps s (flushOps eid ps)
      = { dataDurable := s.dataDurable ++ [mkExtent eid ps], dataVolatile := [],
          jDurable := s.jDurable ++ mkJRecords eid ps, jVolatile := [] } := by
  have h1 : runDiskOps s (flushOps eid ps)
      = runDiskOps (applyDiskOp (applyDiskOp s (.writeExtent (mkExtent eid ps))) .fsyncData)
          ((mkJRecords eid ps).map DiskOp.writeJournal ++ [DiskOp.fsyncJournal]) := rfl
  rw [h1, runDiskOps_append, runDiskOps_writeJournals]
  simp [applyDiskOp, runDiskOps, hdv, hjv]

theorem runDiskOps_flushOpsFrom (fs : List (List Page)) (i : Nat) (s : DiskWState)
    (hdv : s.dataVolatile = []) (hjv : s.jVolatile = []) :
    runDiskOps s (flushOpsFrom i fs)
      = { dataDurable := s.dataDurable ++ extentsOf i fs, dataVolatile := [],
          jDurable := s.jDurable ++ recordsOf i fs, jVolatile := [] } := by
  induction fs generalizing i s with
  | nil =>
    simp only [flushOpsFrom, runDiskOps, List.foldl_nil, extentsOf, recordsOf,
      List.append_nil]
    rw [← hdv, ← hjv]
  | cons ps rest ih =>
    have h1 : flushOpsFrom i (ps :: rest) = flushOps i ps ++ flushOpsFrom (i + 1) rest := rfl
    rw [h1, runDiskOps_append, runDiskOps_flushOps i ps s hdv hjv, ih (i + 1) _ rfl rfl]
    simp [extentsOf, recordsOf]

theorem mkJRecordsFrom_pageIdx (ps : List Page) (eid idx : Nat) (r : JRecord)
    (h : r ∈ mkJRecordsFrom eid idx ps) :
    idx ≤ r.pageIdx ∧ r.pageIdx < idx + ps.length := by
  induction ps generalizing idx with
  | nil => cases h
  | cons p rest ih =>
    rcases List.mem_cons.mp h with h1 | h2
    · rw [h1]
      simp [mkJRecord]
    · have := ih (idx + 1) h2
      simp only [List.length_cons]
      omega

theorem extentValidFor_cons_ne (e : Extent) (files : List Extent) (r : JRecord)
    (hne : e.id ≠ r.extentId) :
    extentValidFor (e :: files) r = extentValidFor files r := by
  unfold extentValidFor
  rw [List.find?_cons_of_neg]
  simp [hne]

theorem readPage_cons_ne (e : Extent) (files : List Extent) (r : JRecord)
    (hne : e.id ≠ r.extentId) :
    readPage (e :: files) r = readPage files r := by
  unfold readPage
  rw [List.find?_cons_of_neg]
  simp [hne]

theorem recordsOf_extentId (cs : List (List Page)) (i : Nat) (r : JRecord)
    (h : r ∈ recordsOf i cs) : i ≤ r.extentId ∧ r.extentId < i + cs.length := by
  induction cs generalizing i with
  | nil => cases h
  | cons ps rest ih =>
    rcases List.mem_append.mp h with h1 | h2
    · have := mem_mkJRecordsFrom_extentId ps i 0 r h1
      simp only [List.length_cons]
      omega
    · have := ih (i + 1) h2
      simp only [List.length_cons]
      omega

theorem extentValidFor_head (eid : Nat) (ps : List Page) (tail : List Extent) (r : JRecord)
    (hid : r.extentId = eid) (hlt : r.pageIdx < ps.length) :
    extentValidFor (mkExtent eid ps :: tail) r = true := by
  unfold extentValidFor
  rw [List.find?_cons_of_pos]
  · simp [mkExtent, hlt]
  · simp [mkExtent, hid]

theorem recordsOf_valid (cs : List (List Page)) (i : Nat) (tail : List Extent)
    (htail : ∀ e ∈ tail, i + cs.length ≤ e.id) :
    ∀ r ∈ recordsOf i cs, extentValidFor (extentsOf i cs ++ tail) r = true := by
  induction cs generalizing i tail with
  | nil =>
    intro r hr
    cases hr
  | cons ps rest ih =>
    intro r hr
    have hshape : extentsOf i (ps :: rest) ++ tail
        = mkExtent i ps :: (extentsOf (i + 1) rest ++ tail) := rfl
    rcases List.mem_append.mp hr with h1 | h2
    · have hid : r.extentId = i := mem_mkJRecordsFrom_extentId ps i 0 r h1
      have hlt := (mkJRecordsFrom_pageIdx ps i 0 r h1).2
      rw [hshape]
      exact extentValidFor_head i ps _ r hid (by omega)
    · have hbound := recordsOf_extentId rest (i + 1) r h2
      rw [hshape, extentValidFor_cons_ne _ _ _ (by simp [mkExtent]; omega)]
      apply ih (i + 1) tail ?_ r h2
      intro e he
      have := htail e he
      simp only [List.length_cons] at this
      omega

theorem scanJournals_append_valid (l1 : List JRecord) (l2 : List JSlot)
    (files : List Extent) (h : ∀ r ∈ l1, extentValidFor files r = true) :
    scanJournals (l1.map .entry ++ l2) files = l1 ++ scanJournals l2 files := by
  induction l1 with
  | nil => rfl
  | cons r t ih =>
    have hr := h r (List.mem_cons_self _ _)
    simp only [List.map_cons, List.cons_append, scanJournals, hr, if_pos]
    exact congrArg (fun x => r :: x) (ih (fun q hq => h q (List.mem_cons_of_mem _ hq)))

theorem scanJournals_sound (slots : List JSlot) (files : List Extent) :
    ∀ r ∈ scanJournals slots files, extentValidFor files r = true := by
  induction slots with
  | nil => intro r hr; cases hr
  | cons sl rest ih =>
    intro r hr
    cases sl with
    | torn => cases hr
    | entry q =>
      simp only [scanJournals] at hr
      by_cases hq : extentValidFor files q = true
      · rw [if_pos hq] at hr
        rcases List.mem_cons.mp hr with h1 | h2
        · rw [h1]
          exact hq
        · exact ih r h2
      · rw [if_neg hq] at hr
        cases hr

theorem scanJournals_truncates (pre : List JRecord) (bad : JSlot) (rest : List JSlot)
    (files : List Extent) (hpre : ∀ r ∈ pre, extentValidFor files r = true)
    (hbad : bad = .torn ∨ ∃ rb, bad = .entry rb ∧ extentValidFor files rb = false) :
    scanJournals (pre.map .entry ++ bad :: rest) files = pre := by
  rw [scanJournals_append_valid pre (bad :: rest) files hpre]
  rcases hbad with hb | ⟨rb, hb, hv⟩
  · subst hb
    simp [scanJournals]
  · subst hb
    simp [scanJournals, hv]

theorem readPage_of_valid (files : List Extent) (r : JRecord)
    (h : extentValidFor files r = true) : ∃ p, readPage files r = .ok p := by
  unfold extentValidFor at h
  unfold readPage
  cases hf : files.find? (fun e => e.id == r.extentId) with
  | none =>
    rw [hf] at h
    cases h
  | some e =>
    rw [hf] at h
    simp only [Bool.and_eq_true, decide_eq_true_eq] at h
    cases hg : e.pages[r.pageIdx]? with
    | none =>
      rw [List.getElem?_eq_getElem h.2] at hg
      cases hg
    | some p =>
      refine ⟨p, ?_⟩
      simp [h.1, hg]

theorem zip_mkJRecordsFrom (ps : List Page) (eid j : Nat) :
    ∀ rp ∈ (mkJRecordsFrom eid j ps).zip ps,
      rp.1.uuid = rp.2.uuid ∧ rp.1.startTime = rp.2.startTime ∧
      rp.1.endTime = rp.2.endTime ∧ rp.1.extentId = eid ∧
      ∃ kdx, rp.1.pageIdx = j + kdx ∧ ps[kdx]? = some rp.2 := by
  induction ps generalizing j with
  | nil =>
    intro rp h
    cases h
  | cons p rest ih =>
    intro rp h
    simp only [mkJRecordsFrom, List.zip_cons_cons] at h
    rcases List.mem_cons.mp h with h1 | h2
    · rw [h1]
      exact ⟨rfl, rfl, rfl, rfl, 0, by simp [mkJRecord], by simp⟩
    · obtain ⟨h3, h4, h5, h6, kdx, h7, h8⟩ := ih (j + 1) rp h2
      refine ⟨h3, h4, h5, h6, kdx + 1, by omega, ?_⟩
      simpa using h8

theorem pairsOf_spec (cs : List (List Page)) (i : Nat) :
    ∀ rp ∈ pairsOf i cs,
      rp.1.uuid = rp.2.uuid ∧ rp.1.startTime = rp.2.startTime ∧
      rp.1.endTime = rp.2.endTime ∧
      rp.1 ∈ recordsOf i cs ∧ (∃ ps ∈ cs, rp.2 ∈ ps) := by
  induction cs generalizing i with
  | nil =>
    intro rp h
    cases h
  | cons ps rest ih =>
    intro rp h
    rcases List.mem_append.mp h with h1 | h2
    · obtain ⟨h3, h4, h5, _, _⟩ := zip_mkJRecordsFrom ps i 0 rp h1
      obtain ⟨hm1, hm2⟩ := List.of_mem_zip h1
      exact ⟨h3, h4, h5, List.mem_append.mpr (Or.inl hm1),
        ps, List.mem_cons_self _ _, hm2⟩
    · obtain ⟨h3, h4, h5, h6, ps2, hps2, hp2⟩ := ih (i + 1) rp h2
      exact ⟨h3, h4, h5, List.mem_append.mpr (Or.inr h6),
        ps2, List.mem_cons_of_mem _ hps2, hp2⟩

theorem pairsOf_read (cs : List (List Page)) (i : Nat) (tail : List Extent)
    (htail : ∀ e ∈ tail, i + cs.length ≤ e.id) :
    ∀ rp ∈ pairsOf i cs, readPage (extentsOf i cs ++ tail) rp.1 = .ok rp.2 := by
  induction cs generalizing i tail with
  | nil =>
    intro rp h
    cases h
  | cons ps rest ih =>
    intro rp h
    have hshape : extentsOf i (ps :: rest) ++ tail
        = mkExtent i ps :: (extentsOf (i + 1) rest ++ tail) := rfl
    rcases List.mem_append.mp h with h1 | h2
    · obtain ⟨_, _, _, hid, kdx, hpidx, hget⟩ := zip_mkJRecordsFrom ps i 0 rp h1
      rw [hshape]
      unfold readPage
      rw [List.find?_cons_of_pos _ (by simp [mkExtent, hid])]
      have hpg : ps[rp.1.pageIdx]? = some rp.2 := by
        rw [hpidx]
        simpa using hget
      simp [mkExtent, hpg]
    · have hbound := recordsOf_extentId rest (i + 1) rp.1
        ((pairsOf_spec rest (i + 1) rp h2).2.2.2.1)
      rw [hshape, readPage_cons_ne _ _ _ (by simp [mkExtent]; omega)]
      refine ih (i + 1) tail ?_ rp h2
      intro e he
      have := htail e he
      simp only [List.length_cons] at this
      omega

theorem readRange_replay_mem (files : List Extent) (slots : List JSlot)
    (r : JRecord) (p : Page)
    (hmem : r ∈ scanJournals slots files)
    (hread : readPage files r = .ok p)
    (hu : r.uuid = p.uuid) (hs : r.startTime = p.startTime)
    (he : r.endTime = p.endTime) (hse : p.startTime ≤ p.endTime) :
    p ∈ readRange (replayDisk ⟨[], files, slots⟩) p.uuid p.startTime p.endTime := by
  show p ∈ ([] : List Page) ++ List.filterMap
    (fun r2 => (readPage files r2).toOption)
    (List.filter
      (fun r2 => r2.uuid == p.uuid &&
        rangesIntersect r2.startTime r2.endTime p.startTime p.endTime &&
        !(List.any ([] : List Page)
          (fun q => q.startTime == r2.startTime && q.endTime == r2.endTime)))
      (scanJournals slots files))
  rw [List.nil_append]
  apply List.mem_filterMap.mpr
  refine ⟨r, List.mem_filter.mpr ⟨hmem, ?_⟩, ?_⟩
  · simp [hu, hs, he, rangesIntersect, hse]
  · rw [hread]
    rfl

/-- C6: crash recovery.  Run any sequence of completed flushes (holding the
pages accumulated by `appendSample`), then crash at any micro-step `k` of one
further in-flight flush, with any fate (lost, intact, or torn) for each
not-yet-fsynced write.  Then: every page whose Extent and Journal write
completed before the crash is still indexed after recovery and is returned by
`readRange` on the replayed engine (readable, with its exact samples); every
record the journal scan keeps references an extent whose checksum trailer
verifies, so a torn extent's samples are absent rather than corrupt; and the
scan reads the journal in order, truncating at the first invalid or
incomplete record and discarding everything after it. -/
theorem crash_recovery_reads_completed (cs : List (List Page)) (q : List Page) (k : Nat)
    (fd fj : List WriteFate)
    (hwf : ∀ ps ∈ cs, ∀ p ∈ ps, p.startTime ≤ p.endTime) :
    ∀ sc files slots,
      sc = runDiskOps emptyDiskW
        (flushOpsFrom 1 cs ++ (flushOps (cs.length + 1) q).take k) →
      files = crashExtents sc fd →
      slots = crashJournalSlots sc fj →
      (∀ rp ∈ pairsOf 1 cs,
        rp.1 ∈ scanJournals slots files ∧
        readPage files rp.1 = .ok rp.2 ∧
        rp.2 ∈ readRange (replayDisk ⟨[], files, slots⟩)
          rp.2.uuid rp.2.startTime rp.2.endTime)
    ∧ (∀ r ∈ scanJournals slots files,
        extentValidFor files r = true ∧ ∃ p, readPage files r = .ok p)
    ∧ (∀ (pre : List JRecord) (bad : JSlot) (rest : List JSlot) (fls : List Extent),
        (∀ r ∈ pre, extentValidFor fls r = true) →
        (bad = .torn ∨ ∃ rb, bad = .entry rb ∧ extentValidFor fls rb = false) →
        scanJournals (pre.map .entry ++ bad :: rest) fls = pre) := by
  intro sc files slots hsc hfiles hslots
  have hsC : runDiskOps emptyDiskW (flushOpsFrom 1 cs)
      = (⟨extentsOf 1 cs, [], recordsOf 1 cs, []⟩ : DiskWState) := by
    rw [runDiskOps_flushOpsFrom cs 1 emptyDiskW rfl rfl]
    rfl
  have hsc2 : sc = runDiskOps (⟨extentsOf 1 cs, [], recordsOf 1 cs, []⟩ : DiskWState)
      ((flushOps (cs.length + 1) q).take k) := by
    rw [hsc, runDiskOps_append, hsC]
  have hchar := flush_crash_states (cs.length + 1) q
    ⟨extentsOf 1 cs, [], recordsOf 1 cs, []⟩ k rfl rfl
  rw [← hsc2] at hchar
  obtain ⟨tailE, hfe, htailE⟩ :
      ∃ tailE, files = extentsOf 1 cs ++ tailE ∧ ∀ e ∈ tailE, 1 + cs.length ≤ e.id := by
    rcases hchar with ⟨hd, hjd, hjv, hdv⟩ | ⟨hd, hjd, hjv, hdv, hdvnil, htl⟩
    · refine ⟨fateExtents sc.dataVolatile fd, ?_, ?_⟩
      · rw [hfiles]
        unfold crashExtents
        rw [hd]
      · intro e he
        obtain ⟨e0, he0, hor⟩ := fateExtents_mem _ _ _ he
        have he0q : e0 = mkExtent (cs.length + 1) q := hdv e0 he0
        subst he0q
        rcases hor with h | h <;> rw [h] <;> simp [mkExtent] <;> omega
    · refine ⟨[mkExtent (cs.length + 1) q] ++ fateExtents sc.dataVolatile fd, ?_, ?_⟩
      · rw [hfiles]
        unfold crashExtents
        rw [hd, List.append_assoc]
      · intro e he
        rw [hdvnil] at he
        have hfe2 : fateExtents ([] : List Extent) fd = [] := rfl
        rw [hfe2] at he
        simp only [List.append_nil, List.mem_singleton] at he
        rw [he]
        simp only [mkExtent]
        omega
  obtain ⟨tslots, hslots2⟩ :
      ∃ tslots, slots = (recordsOf 1 cs).map .entry ++ tslots := by
    rcases hchar with ⟨hd, hjd, hjv, hdv⟩ | ⟨hd, hjd, hjv, hdv, hdvnil, ⟨tl, htl, htlmem⟩⟩
    · refine ⟨fateJSlots sc.jVolatile fj, ?_⟩
      rw [hslots]
      unfold crashJournalSlots
      rw [hjd]
    · refine ⟨tl.map .entry ++ fateJSlots sc.jVolatile fj, ?_⟩
      rw [hslots]
      unfold crashJournalSlots
      rw [htl, List.map_append, List.append_assoc]
  have hvalidpre : ∀ r ∈ recordsOf 1 cs, extentValidFor files r = true := by
    rw [hfe]
    exact recordsOf_valid cs 1 tailE htailE
  have hkept : scanJournals slots files = recordsOf 1 cs ++ scanJournals tslots files := by
    rw [hslots2]
    exact scanJournals_append_valid _ _ _ hvalidpre
  refine ⟨?_, ?_, ?_⟩
  · intro rp hrp
    obtain ⟨h3, h4, h5, hrec, ps2, hps2, hp2⟩ := pairsOf_spec cs 1 rp hrp
    have hr : readPage files rp.1 = .ok rp.2 := by
      rw [hfe]
      exact pairsOf_read cs 1 tailE htailE rp hrp
    have hmem2 : rp.1 ∈ scanJournals slots files := by
      rw [hkept]
      exact List.mem_append.mpr (Or.inl hrec)
    exact ⟨hmem2, hr,
      readRange_replay_mem files slots rp.1 rp.2 hmem2 hr h3 h4 h5 (hwf ps2 hps2 rp.2 hp2)⟩
  · intro r hrk
    have hv := scanJournals_sound slots files r hrk
    exact ⟨hv, readPage_of_valid files r hv⟩
  · intro pre bad rest fls h1 h2
    exact scanJournals_truncates pre bad rest fls h1 h2

/-- Witness for C6: one completed flush of a page for uuid 7, a crash in the
middle of a second flush whose unsynced extent write is torn: after replay
the completed page is returned by `readRange`. -/
theorem crash_recovery_reads_completed_witness :
    (⟨7, [⟨1, 2, 0⟩]⟩ : Page) ∈ readRange
      (replayDisk ⟨[],
        crashExtents (runDiskOps emptyDiskW
          (flushOpsFrom 1 [[⟨7, [⟨1, 2, 0⟩]⟩]]
            ++ (flushOps 2 [⟨8, [⟨5, 3, 0⟩]⟩]).take 1)) [.torn],
        crashJournalSlots (runDiskOps emptyDiskW
          (flushOpsFrom 1 [[⟨7, [⟨1, 2, 0⟩]⟩]]
            ++ (flushOps 2 [⟨8, [⟨5, 3, 0⟩]⟩]).take 1)) []⟩)
      7 1 1 := by
  have h := crash_recovery_reads_completed [[⟨7, [⟨1, 2, 0⟩]⟩]] [⟨8, [⟨5, 3, 0⟩]⟩] 1
    [.torn] [] (by decide) _ _ _ rfl rfl rfl
  exact (h.1 (⟨7, 1, 1, 1, 0⟩, ⟨7, [⟨1, 2, 0⟩]⟩) (by decide)).2.2
